import Mathlib

/-!
# Routing table of the S/Kademlia identity directory (`skademlia/table.go`)

A shallow embedding of `Table` and its operations `NewTable`, `Find`, `Delete`,
`Update`, `FindClosest` and `getBucketID`, followed by theorems about them.
The helpers `xor` and `prefixLen` and the type `ID` are declared in other files of
the package; they are modelled from the specification of the package.

* A byte slice (`[]byte`) is a `List Nat`; a digest (`[blake2b.Size256]byte`) is a
  list of exactly 32 bytes, each below 256.
* A bucket (`container/list.List` of `*ID`) is a `List ID` whose head is the front
  of the list; a `*list.Element` handle is the position of the element.
* The table is passed through the operations explicitly: an operation that
  mutates a bucket returns the table after the call.
* A run-time panic of the Go code (index or slice bound out of range) is the
  `Except.error` outcome of the function that embeds it.
* The calls are sequential, except in the last part, where each critical section
  of `Update` is a step of a thread and threads are interleaved by a schedule.
-/

namespace Skademlia

/-! ## Data model -/

/-- The digest size `blake2b.Size256`. -/
def Size256 : Nat := 32

/-- A digest, the Go array `[blake2b.Size256]byte`. -/
structure Digest where
  bytes : List Nat
  size_eq : bytes.length = Size256
  byte_lt : ∀ b ∈ bytes, b < 256
deriving DecidableEq

/-- Modelled from the spec: the identity type `ID` is declared outside `table.go`.
The spec calls it an opaque value whose only attribute the table relies on is its
fixed-length digest (`checksum`). The table stores references (`*ID`); `ref`
stands for the reference, so that two different identities may carry one digest. -/
structure ID where
  checksum : Digest
  ref : Nat
deriving DecidableEq

/-- A bucket: the embedded `list.List`, front first. -/
abbrev Bucket := List ID

/-- The struct `Table`. -/
structure Table where
  self : ID
  buckets : List Bucket
  bucketSize : Nat
deriving DecidableEq

/-- The error values of `Update`: only `ErrBucketFull`. -/
inductive TableError where
  | ErrBucketFull
deriving DecidableEq

/-- The run-time panics the embedded code can raise, and the exhaustion of the
iteration bound of the embedding of a `for` loop. -/
inductive Fault where
  | indexOutOfRange
  | sliceBoundsOutOfRange
  | fuelExhausted
deriving DecidableEq

deriving instance DecidableEq for Except

/-! ## Helpers of the package that `table.go` calls -/

/-- Modelled from the spec: the helper `xor` is defined outside `table.go`.
The spec: byte-wise exclusive-or of two equal-length digests. -/
def xor : List Nat → List Nat → List Nat
  | a :: as, b :: bs => (a ^^^ b) :: xor as bs
  | _, _ => []

/-- Go's `bits.LeadingZeros8` on a byte. -/
def leadingZeros8 (b : Nat) : Nat :=
  if 128 ≤ b then 0
  else if 64 ≤ b then 1
  else if 32 ≤ b then 2
  else if 16 ≤ b then 3
  else if 8 ≤ b then 4
  else if 4 ≤ b then 5
  else if 2 ≤ b then 6
  else if 1 ≤ b then 7
  else 8

/-- The number of leading zero bits of a byte slice. -/
def leadingZeroBits : List Nat → Nat
  | [] => 0
  | b :: bs => if b = 0 then 8 + leadingZeroBits bs else leadingZeros8 b

/-- Modelled from the spec: the helper `prefixLen` is defined outside `table.go`.
The spec: the count of leading zero bits of its argument, the bucket-selection
coordinate, one bucket per prefix length `0..N-1` for the `N = 8 × length` bits of
a digest. The count is therefore kept within `0..N-1`: an all-zero argument, the
XOR of a digest with itself, has the last coordinate `N-1`, the index of the
bucket in which `NewTable` puts the local identity. -/
def prefixLen (buf : List Nat) : Nat :=
  min (leadingZeroBits buf) (8 * buf.length - 1)

/-- Go's `bytes.Compare`: lexicographic comparison of two byte slices, giving
`-1`, `0` or `1`. -/
def bytesCompare : List Nat → List Nat → Int
  | [], [] => 0
  | [], _ :: _ => -1
  | _ :: _, [] => 1
  | a :: as, b :: bs =>
    if a < b then -1 else if b < a then 1 else bytesCompare as bs

/-- The function `getBucketID`. -/
def getBucketID (self target : Digest) : Nat :=
  prefixLen (xor target.bytes self.bytes)

/-! ## Buckets -/

/-- The method `List.PushFront`. -/
def PushFront (b : Bucket) (v : ID) : Bucket := v :: b

/-- The method `List.MoveToFront` on the element at position `e`. -/
def MoveToFront (b : Bucket) (e : Nat) : Bucket :=
  match b[e]? with
  | some v => v :: b.eraseIdx e
  | none => b

/-- The method `List.Remove` on the element at position `e`: the bucket without
the element, and the value the element held. -/
def Remove (b : Bucket) (e : Nat) : Bucket × Option ID :=
  (b.eraseIdx e, b[e]?)

/-- The scan of `Table.Find`: position of the first element whose digest is
`checksum`, walking from the front. -/
def scan (checksum : Digest) : Bucket → Option Nat
  | [] => none
  | e :: rest =>
    if e.checksum = checksum then some 0 else (scan checksum rest).map (· + 1)

/-- The method `Table.Find`. -/
def Find (b : Bucket) (target : Option ID) : Option Nat :=
  match target with
  | none => none
  | some x => scan x.checksum b

/-- The method `Table.Delete`: the bucket after the call and the returned flag. -/
def Delete (b : Bucket) (target : Option ID) : Bucket × Bool :=
  match Find b target with
  | none => (b, false)
  | some e => ((Remove b e).1, (Remove b e).2.isSome)

/-! ## The table -/

/-- The table with bucket `i` replaced by `b`. -/
def Table.setBucket (t : Table) (i : Nat) (b : Bucket) : Table :=
  { t with buckets := t.buckets.set i b }

/-- The function `NewTable`. A digest has 32 bytes, so the table has 256 buckets
and the index `len(t.buckets)-1` of the bucket that receives `self` is 255. -/
def NewTable (self : ID) : Table :=
  let buckets : List Bucket := List.replicate (self.checksum.bytes.length * 8) []
  { self := self
    buckets := buckets.set (buckets.length - 1) (PushFront (buckets.getD (buckets.length - 1) []) self)
    bucketSize := 16 }

/-- The method `Table.Delete` called with the bucket `t.buckets[i]`, for `i` an
index of the table: the table after the call and the returned flag. -/
def Table.DeleteAt (t : Table) (i : Nat) (target : Option ID) : Table × Bool :=
  (t.setBucket i (Delete (t.buckets.getD i []) target).1, (Delete (t.buckets.getD i []) target).2)

/-- The method `Table.Update`: the table after the call and the returned error
(`none` for Go's `nil`). -/
def Update (t : Table) (target : Option ID) : Except Fault (Table × Option TableError) :=
  match target with
  | none => .ok (t, none)
  | some x =>
    let idx := getBucketID t.self.checksum x.checksum
    match t.buckets[idx]? with
    | none => .error Fault.indexOutOfRange
    | some b =>
      match Find b (some x) with
      | some e => .ok (t.setBucket idx (MoveToFront b e), none)
      | none =>
        if b.length < t.bucketSize then .ok (t.setBucket idx (PushFront b x), none)
        else .ok (t, some TableError.ErrBucketFull)

/-- The all-zero digest, the zero value of `[blake2b.Size256]byte`. -/
def zeroDigest : Digest :=
  ⟨List.replicate Size256 0, by simp, by simp⟩

/-- The closure `f` of `FindClosest`: appends to `closest` the members of the
bucket whose digest differs from `checksum`, front to back. -/
def collect (checksum : Digest) (b : Bucket) (closest : List ID) : List ID :=
  closest ++ b.filter (fun id => decide (id.checksum ≠ checksum))

/-- The comparison handed to `sort.Slice` in `FindClosest`. -/
def less (checksum : Digest) (a b : ID) : Bool :=
  decide (bytesCompare (xor a.checksum.bytes checksum.bytes)
    (xor b.checksum.bytes checksum.bytes) = -1)

/-- Insertion of `x` in front of the first element that is not below it. -/
def insertSorted (lt : ID → ID → Bool) (x : ID) : List ID → List ID
  | [] => [x]
  | y :: ys => if lt y x then y :: insertSorted lt x ys else x :: y :: ys

/-- Go's `sort.Slice`, as an insertion sort. The library promises an ordered
rearrangement of the slice and no more (not stability); the theorems below use
only that much of this definition. -/
def sortSlice (lt : ID → ID → Bool) : List ID → List ID
  | [] => []
  | x :: xs => insertSorted lt x (sortSlice lt xs)

/-- A guarded call of the closure `f` on `t.buckets[j]`, as in
`if idx-i >= 0 { f(t.buckets[idx-i]) }`. -/
def visit (buckets : List Bucket) (checksum : Digest) (guard : Bool) (j : Nat)
    (closest : List ID) : Except Fault (List ID) :=
  if guard then
    match buckets[j]? with
    | some b => .ok (collect checksum b closest)
    | none => .error Fault.indexOutOfRange
  else .ok closest

/-- The `for` loop of `FindClosest`, from the value `i` of its counter. The first
argument bounds the number of iterations. -/
def expand (buckets : List Bucket) (checksum : Digest) (idx : Nat) (k : Int) :
    Nat → Nat → List ID → Except Fault (List ID)
  | 0, i, closest =>
    if (closest.length : Int) < k ∧ (i ≤ idx ∨ idx + i < buckets.length) then
      .error Fault.fuelExhausted
    else .ok closest
  | fuel + 1, i, closest =>
    if (closest.length : Int) < k ∧ (i ≤ idx ∨ idx + i < buckets.length) then
      match visit buckets checksum (decide (i ≤ idx)) (idx - i) closest with
      | .error e => .error e
      | .ok c₁ =>
        match visit buckets checksum (decide (idx + i < buckets.length)) (idx + i) c₁ with
        | .error e => .error e
        | .ok c₂ => expand buckets checksum idx k fuel (i + 1) c₂
    else .ok closest

/-- The candidates `FindClosest` has gathered when its loop ends, before they
are sorted. -/
def gather (t : Table) (checksum : Digest) (k : Int) : Except Fault (List ID) :=
  let idx := getBucketID t.self.checksum checksum
  match visit t.buckets checksum true idx [] with
  | .error e => .error e
  | .ok closest => expand t.buckets checksum idx k t.buckets.length 1 closest

/-- The truncation `closest[:k]` guarded by `len(closest) > k`. -/
def truncate (closest : List ID) (k : Int) : Except Fault (List ID) :=
  if (closest.length : Int) > k then
    if k < 0 then .error Fault.sliceBoundsOutOfRange else .ok (closest.take k.toNat)
  else .ok closest

/-- The digest `FindClosest` measures distances to: the target's, or the zero
value when the target is nil. -/
def targetChecksum (target : Option ID) : Digest :=
  match target with
  | some x => x.checksum
  | none => zeroDigest

/-- The method `Table.FindClosest`. -/
def FindClosest (t : Table) (target : Option ID) (k : Int) : Except Fault (List ID) :=
  let checksum := targetChecksum target
  match gather t checksum k with
  | .error e => .error e
  | .ok closest => truncate (sortSlice (less checksum) closest) k

/-- The table states reachable from `NewTable self` by calls of `Update` and of
`Delete` on a bucket of the table. -/
inductive Reachable (self : ID) : Table → Prop where
  | init : Reachable self (NewTable self)
  | update (t t' : Table) (target : Option ID) (err : Option TableError) :
      Reachable self t → Update t target = .ok (t', err) → Reachable self t'
  | delete (t : Table) (i : Nat) (target : Option ID) :
      Reachable self t → i < t.buckets.length → Reachable self (t.DeleteAt i target).1

/-! ## The invariant of reachable tables -/

/-- What every bucket of a reachable table satisfies: `b` is bucket `i` of a table
whose local identity is `self`. -/
def GoodBucket (self : ID) (i : Nat) (b : Bucket) : Prop :=
  b.length ≤ 16 ∧
  (∀ x ∈ b, getBucketID self.checksum x.checksum = i) ∧
  (b.map ID.checksum).Nodup

/-- The invariant of the tables reachable from `NewTable self`. -/
structure Inv (loc : ID) (t : Table) : Prop where
  self_eq : t.self = loc
  size_eq : t.bucketSize = 16
  len_eq : t.buckets.length = 256
  good : ∀ i b, t.buckets[i]? = some b → GoodBucket loc i b

/-! ## Concrete tables -/

/-- The digest whose first byte is `b % 256` and whose other bytes are zero. -/
def digestOf (b : Nat) : Digest :=
  ⟨(b % 256) :: List.replicate 31 0, by simp [Size256], by
    intro z hz
    simp only [List.mem_cons, List.mem_replicate] at hz
    rcases hz with rfl | ⟨_, rfl⟩
    · exact Nat.mod_lt _ (by decide)
    · decide⟩

/-- The identity with digest `digestOf b` and reference `r`. -/
def peer (b r : Nat) : ID := ⟨digestOf b, r⟩

/-- A local identity whose digest is all-zero. -/
def selfZ : ID := ⟨zeroDigest, 0⟩

/-- The table after `Update` has been called on each identity of the list in
turn; a call that does not return leaves the table as it is. -/
def applyUpdates (t : Table) : List ID → Table
  | [] => t
  | x :: xs =>
    match Update t (some x) with
    | .ok (t', _) => applyUpdates t' xs
    | .error _ => applyUpdates t xs

/-- The table of `selfZ` after sixteen identities with first digest bytes
`0x80 .. 0x8f` were added: its bucket 0 is full. -/
def fullTable : Table :=
  applyUpdates (NewTable selfZ) ((List.range 16).map (fun i => peer (128 + i) (i + 1)))

/-- The table of `selfZ` after the identities with first digest bytes `0x80` and
`0x10` were added: buckets 0 and 3. -/
def sparseTable : Table :=
  applyUpdates (NewTable selfZ) [peer 128 1, peer 16 2]

/-! ## The buckets `FindClosest` visits -/

/-- The entries of the buckets `bs` whose digest differs from `c`, in bucket
order. -/
def candidates (c : Digest) (bs : List Bucket) : List ID :=
  bs.flatten.filter (fun id => decide (id.checksum ≠ c))

/-- The buckets at the indices `j` with `idx + 1 - i ≤ j < idx + i`: those the loop
of `FindClosest` has visited when its counter is `i`. -/
def window (bs : List Bucket) (idx i : Nat) : List Bucket :=
  (bs.take (idx + i)).drop (idx + 1 - i)

/-- The digest whose 32 bytes are all `0xff`. -/
def onesDigest : Digest :=
  ⟨List.replicate Size256 255, by simp, by
    intro z hz
    rw [List.mem_replicate] at hz
    omega⟩

/-- The table of `selfZ` after the identity with digest `onesDigest` was added. -/
def onesTable : Table :=
  applyUpdates (NewTable selfZ) [⟨onesDigest, 7⟩]

/-- The table `sparseTable` after `Delete` of `selfZ` on its last bucket. -/
def anchorlessTable : Table :=
  (sparseTable.DeleteAt 255 (some selfZ)).1

/-- The digest whose last byte is `b % 256` and whose other bytes are zero. -/
def lastDigest (b : Nat) : Digest :=
  ⟨List.replicate 31 0 ++ [b % 256], by simp [Size256], by
    intro z hz
    simp only [List.mem_append, List.mem_replicate, List.mem_singleton] at hz
    rcases hz with ⟨_, rfl⟩ | rfl
    · decide
    · exact Nat.mod_lt _ (by decide)⟩

/-- The table of `selfZ` after sixteen identities with last digest bytes
`0x10 .. 0x1f` were added: its bucket 251 is full. -/
def highTable : Table :=
  applyUpdates (NewTable selfZ) ((List.range 16).map (fun i => ⟨lastDigest (16 + i), i + 1⟩))

/-! ## Interleaved calls of `Update`

`Update` takes the bucket lock three times: `Find` scans under `RLock`, `Len`
reads under `RLock`, and `MoveToFront` or `PushFront` writes under `Lock`. Each
of these critical sections is one atomic step of the calling thread; between two
of its steps other threads may run theirs. -/

/-- Where a thread stands in its call `Update(target)`. -/
inductive Pc where
  /-- Before `t.Find(b, target)`. -/
  | start
  /-- `Find` returned the element at position `e`; `b.MoveToFront(e)` comes next. -/
  | found (e : Nat)
  /-- `Find` returned nil; `b.Len() < t.bucketSize` comes next. -/
  | absent
  /-- `b.Len() < t.bucketSize` held; `b.PushFront(target)` comes next. -/
  | room
  /-- The call returned `err`. -/
  | done (err : Option TableError)
  /-- The call panicked. -/
  | panicked
deriving DecidableEq

/-- A thread running `Update(target)`. -/
structure Thread where
  target : Option ID
  pc : Pc
deriving DecidableEq

/-- One critical section of the thread `th` on the table `t`: the table and the
thread afterwards. The element handle kept between `Find` and `MoveToFront` is
the position `Find` saw. -/
def Thread.step (t : Table) (th : Thread) : Table × Thread :=
  match th.target with
  | none =>
    match th.pc with
    | Pc.start => (t, { th with pc := Pc.done none })
    | _ => (t, th)
  | some x =>
    let idx := getBucketID t.self.checksum x.checksum
    match t.buckets[idx]? with
    | none =>
      match th.pc with
      | Pc.done _ => (t, th)
      | _ => (t, { th with pc := Pc.panicked })
    | some b =>
      match th.pc with
      | Pc.start =>
        match Find b (some x) with
        | some e => (t, { th with pc := Pc.found e })
        | none => (t, { th with pc := Pc.absent })
      | Pc.found e => (t.setBucket idx (MoveToFront b e), { th with pc := Pc.done none })
      | Pc.absent =>
        if b.length < t.bucketSize then (t, { th with pc := Pc.room })
        else (t, { th with pc := Pc.done (some TableError.ErrBucketFull) })
      | Pc.room => (t.setBucket idx (PushFront b x), { th with pc := Pc.done none })
      | Pc.done _ => (t, th)
      | Pc.panicked => (t, th)

/-- The table and the threads after the schedule `sched`: each number in it lets
the thread with that index run its next critical section. -/
def runSchedule : Table × List Thread → List Nat → Table × List Thread
  | st, [] => st
  | (t, ths), i :: sched =>
    match ths[i]? with
    | none => runSchedule (t, ths) sched
    | some th => runSchedule ((th.step t).1, ths.set i (th.step t).2) sched

/-- The table of `selfZ` after fifteen identities with first digest bytes
`0x80 .. 0x8e` were added: its bucket 0 has one free place. -/
def nearFullTable : Table :=
  applyUpdates (NewTable selfZ) ((List.range 15).map (fun i => peer (128 + i) (i + 1)))

/-! ## Lemmas on buckets -/

theorem scan_eq_none_iff (c : Digest) (b : Bucket) :
    scan c b = none ↔ ∀ y ∈ b, y.checksum ≠ c := by
  induction b with
  | nil => simp [scan]
  | cons e rest ih =>
    by_cases h : e.checksum = c
    · simp [scan, h]
    · simp [scan, h, ih]

theorem scan_eq_some (c : Digest) (b : Bucket) (e : Nat) (h : scan c b = some e) :
    ∃ v, b[e]? = some v ∧ v.checksum = c ∧
      ∀ j w, j < e → b[j]? = some w → w.checksum ≠ c := by
  induction b generalizing e with
  | nil => simp [scan] at h
  | cons y rest ih =>
    by_cases hy : y.checksum = c
    · simp [scan, hy] at h
      subst h
      exact ⟨y, by simp, hy, by intro j w hj; omega⟩
    · simp [scan, hy] at h
      obtain ⟨e', he', rfl⟩ := h
      obtain ⟨v, hv, hvc, hlt⟩ := ih e' he'
      refine ⟨v, by simpa using hv, hvc, ?_⟩
      intro j w hj hw
      cases j with
      | zero => simp at hw; subst hw; exact hy
      | succ j => exact hlt j w (by omega) (by simpa using hw)

theorem perm_cons_eraseIdx (b : Bucket) (e : Nat) (v : ID) (h : b[e]? = some v) :
    (v :: b.eraseIdx e).Perm b := by
  obtain ⟨hlt, hv⟩ := List.getElem?_eq_some.mp h
  have h1 : b = b.take e ++ v :: b.drop (e + 1) := by
    rw [← hv, List.getElem_cons_drop, List.take_append_drop]
  rw [List.eraseIdx_eq_take_drop_succ]
  conv_rhs => rw [h1]
  exact List.perm_middle.symm

theorem MoveToFront_perm (b : Bucket) (e : Nat) : (MoveToFront b e).Perm b := by
  unfold MoveToFront
  cases h : b[e]? with
  | none => exact List.Perm.refl _
  | some v => exact perm_cons_eraseIdx b e v h

/-! ## Invariants of reachable tables -/

/-! ## Lemmas on `xor`, `prefixLen` and `getBucketID` -/

theorem xor_comm (a b : List Nat) : xor a b = xor b a := by
  induction a generalizing b with
  | nil => cases b <;> simp [xor]
  | cons x xs ih =>
    cases b with
    | nil => simp [xor]
    | cons y ys => simp [xor, Nat.xor_comm x y, ih ys]

theorem length_xor (a b : List Nat) (h : a.length = b.length) : (xor a b).length = a.length := by
  induction a generalizing b with
  | nil => cases b <;> simp [xor]
  | cons x xs ih =>
    cases b with
    | nil => simp at h
    | cons y ys => simp [xor, ih ys (by simpa using h)]

theorem xor_all_zero_iff (a b : List Nat) (h : a.length = b.length) :
    (∀ z ∈ xor a b, z = 0) ↔ a = b := by
  induction a generalizing b with
  | nil => cases b <;> simp [xor] at h ⊢
  | cons x xs ih =>
    cases b with
    | nil => simp at h
    | cons y ys =>
      have := ih ys (by simpa using h)
      simp [xor, Nat.xor_eq_zero, this]

theorem leadingZeros8_lt (b : Nat) (h : b ≠ 0) : leadingZeros8 b < 8 := by
  unfold leadingZeros8
  repeat' split
  all_goals omega

theorem leadingZeroBits_all_zero (l : List Nat) (h : ∀ z ∈ l, z = 0) :
    leadingZeroBits l = 8 * l.length := by
  induction l with
  | nil => rfl
  | cons b bs ih =>
    have hb : b = 0 := h b (by simp)
    have := ih (fun z hz => h z (by simp [hz]))
    simp [leadingZeroBits, hb, this]; omega

theorem leadingZeroBits_lt (l : List Nat) (h : ¬ ∀ z ∈ l, z = 0) :
    leadingZeroBits l < 8 * l.length := by
  induction l with
  | nil => simp at h
  | cons b bs ih =>
    by_cases hb : b = 0
    · have h2 : ¬ ∀ z ∈ bs, z = 0 := by
        intro hall
        apply h
        intro z hz
        simp at hz
        rcases hz with rfl | hz
        · exact hb
        · exact hall z hz
      have := ih h2
      simp [leadingZeroBits, hb]; omega
    · have := leadingZeros8_lt b hb
      simp [leadingZeroBits, hb]; omega

theorem prefixLen_lt (l : List Nat) (h : 0 < l.length) : prefixLen l < 8 * l.length := by
  unfold prefixLen
  omega

theorem prefixLen_all_zero (l : List Nat) (h : ∀ z ∈ l, z = 0) :
    prefixLen l = 8 * l.length - 1 := by
  unfold prefixLen
  rw [leadingZeroBits_all_zero l h]
  omega

theorem prefixLen_eq_leadingZeroBits (l : List Nat) (h : ¬ ∀ z ∈ l, z = 0) :
    prefixLen l = leadingZeroBits l := by
  have := leadingZeroBits_lt l h
  unfold prefixLen
  omega

theorem Digest.ext_bytes {a b : Digest} (h : a.bytes = b.bytes) : a = b := by
  cases a; cases b; simp at h; subst h; rfl

theorem getBucketID_self (a : Digest) : getBucketID a a = 255 := by
  unfold getBucketID
  rw [prefixLen_all_zero _ ((xor_all_zero_iff _ _ rfl).mpr rfl), length_xor _ _ rfl, a.size_eq]
  rfl

theorem getBucketID_lt (a b : Digest) : getBucketID a b < 256 := by
  unfold getBucketID
  have hlen : b.bytes.length = a.bytes.length := by rw [a.size_eq, b.size_eq]
  have := prefixLen_lt (xor b.bytes a.bytes) (by
    rw [length_xor _ _ hlen, b.size_eq]; decide)
  rw [length_xor _ _ hlen, b.size_eq] at this
  exact this

theorem Inv.setBucket {self : ID} {t : Table} (h : Inv self t) (i : Nat) (b : Bucket)
    (hb : GoodBucket self i b) : Inv self (t.setBucket i b) := by
  refine ⟨h.self_eq, h.size_eq, ?_, ?_⟩
  · simp [Table.setBucket, h.len_eq]
  · intro j c hj
    simp only [Table.setBucket, List.getElem?_set] at hj
    by_cases hij : i = j
    · subst hij
      by_cases hlt : i < t.buckets.length
      · simp [hlt] at hj
        subst hj
        exact hb
      · simp [hlt] at hj
    · simp [hij] at hj
      exact h.good j c hj

theorem GoodBucket.of_sublist {self : ID} {i : Nat} {b b' : Bucket}
    (hb : GoodBucket self i b) (hs : b'.Sublist b) : GoodBucket self i b' :=
  ⟨le_trans hs.length_le hb.1, fun x hx => hb.2.1 x (hs.subset hx),
    hb.2.2.sublist (hs.map _)⟩

theorem GoodBucket.of_perm {self : ID} {i : Nat} {b b' : Bucket}
    (hb : GoodBucket self i b) (hp : b'.Perm b) : GoodBucket self i b' :=
  ⟨by rw [hp.length_eq]; exact hb.1, fun x hx => hb.2.1 x (hp.subset hx),
    (hp.map _).nodup_iff.mpr hb.2.2⟩

theorem NewTable_getElem? (self : ID) (n : Nat) (hn : self.checksum.bytes.length * 8 = n)
    (i : Nat) (b : Bucket) (hi : (NewTable self).buckets[i]? = some b) :
    (i + 1 = n ∧ b = [self]) ∨ (i + 1 ≠ n ∧ b = []) := by
  have hD : (List.replicate n ([] : Bucket)).getD (n - 1) [] = [] := by
    rw [List.getD_eq_getElem?_getD, List.getElem?_replicate]; split <;> rfl
  simp only [NewTable, hn, List.length_replicate, List.getElem?_set,
    List.getElem?_replicate, hD, PushFront] at hi
  by_cases h : n - 1 = i
  · subst h
    by_cases hlt : n - 1 < n
    · simp [hlt] at hi
      left
      exact ⟨by omega, hi.symm⟩
    · simp [hlt] at hi
  · simp only [h, if_false] at hi
    split at hi
    · cases hi
      right
      exact ⟨by omega, rfl⟩
    · cases hi

theorem Inv.newTable (self : ID) : Inv self (NewTable self) := by
  have hlen : self.checksum.bytes.length * 8 = 256 := by
    rw [self.checksum.size_eq]; rfl
  refine ⟨rfl, rfl, ?_, ?_⟩
  · simp only [NewTable, List.length_set, List.length_replicate, hlen]
  · intro i b hi
    rcases NewTable_getElem? self 256 hlen i b hi with ⟨h1, rfl⟩ | ⟨_, rfl⟩
    · refine ⟨by simp, ?_, by simp⟩
      intro x hx
      rw [List.mem_singleton.mp hx, getBucketID_self]
      omega
    · exact ⟨by simp, by simp, by simp⟩

theorem Delete_sublist (b : Bucket) (target : Option ID) : (Delete b target).1.Sublist b := by
  unfold Delete
  cases h : Find b target with
  | none => exact List.Sublist.refl _
  | some e => exact List.eraseIdx_sublist b e

theorem Inv.update {self : ID} {t t' : Table} {target : Option ID} {err : Option TableError}
    (h : Inv self t) (hu : Update t target = .ok (t', err)) : Inv self t' := by
  cases target with
  | none =>
    simp [Update] at hu
    rw [← hu.1]; exact h
  | some x =>
    simp only [Update] at hu
    cases hb : t.buckets[getBucketID t.self.checksum x.checksum]? with
    | none => simp [hb] at hu
    | some b =>
      have hg := h.good _ b hb
      simp only [hb] at hu
      cases hf : Find b (some x) with
      | some e =>
        simp [hf] at hu
        rw [← hu.1]
        exact h.setBucket _ _ (hg.of_perm (MoveToFront_perm b e))
      | none =>
        simp only [hf] at hu
        by_cases hlt : b.length < t.bucketSize
        · simp [hlt] at hu
          rw [← hu.1]
          refine h.setBucket _ _ ⟨?_, ?_, ?_⟩
          · rw [h.size_eq] at hlt
            simp [PushFront]; omega
          · intro y hy
            simp [PushFront] at hy
            rcases hy with rfl | hy
            · rw [← h.self_eq]
            · exact hg.2.1 y hy
          · have hnone := (scan_eq_none_iff x.checksum b).mp hf
            simp only [PushFront, List.map_cons, List.nodup_cons]
            refine ⟨?_, hg.2.2⟩
            intro hmem
            obtain ⟨y, hy, hyc⟩ := List.mem_map.mp hmem
            exact hnone y hy hyc
        · simp [hlt] at hu
          rw [← hu.1]; exact h

theorem Inv.deleteAt {self : ID} {t : Table} (h : Inv self t) (i : Nat) (target : Option ID)
    (hi : i < t.buckets.length) : Inv self (t.DeleteAt i target).1 := by
  have hb : t.buckets[i]? = some (t.buckets.getD i []) := by
    simp [List.getD, List.getElem?_eq_getElem hi]
  exact h.setBucket _ _ ((h.good i _ hb).of_sublist (Delete_sublist _ _))

theorem Reachable.inv {self : ID} {t : Table} (h : Reachable self t) : Inv self t := by
  induction h with
  | init => exact Inv.newTable self
  | update t t' target err _ hu ih => exact ih.update hu
  | delete t i target _ hi ih => exact ih.deleteAt i target hi

theorem Reachable.applyUpdates {self : ID} {t : Table} (h : Reachable self t) (xs : List ID) :
    Reachable self (applyUpdates t xs) := by
  induction xs generalizing t with
  | nil => exact h
  | cons x xs ih =>
    unfold Skademlia.applyUpdates
    split
    · next t' err hu => exact ih (Reachable.update t t' (some x) err h hu)
    · exact ih h

theorem reachable_fullTable : Reachable selfZ fullTable :=
  Reachable.init.applyUpdates _

theorem reachable_sparseTable : Reachable selfZ sparseTable :=
  Reachable.init.applyUpdates _

/-! ## Bucket placement and capacity -/

/-- C2: in every table reachable from `NewTable self` by `Update` and `Delete`
calls, the freshly constructed table included, each member `x` of bucket `i` has
`prefixLen (xor self.checksum x.checksum) = i`. -/
theorem bucket_placement (self : ID) (t : Table) (h : Reachable self t)
    (i : Nat) (b : Bucket) (hb : t.buckets[i]? = some b) (x : ID) (hx : x ∈ b) :
    prefixLen (xor self.checksum.bytes x.checksum.bytes) = i := by
  have h1 := (h.inv.good i b hb).2.1 x hx
  rw [xor_comm]
  exact h1

set_option maxRecDepth 100000 in
/-- Witness of `bucket_placement`: the local identity in the last bucket of the
freshly constructed table. -/
theorem bucket_placement_witness :
    Reachable selfZ (NewTable selfZ) ∧
    prefixLen (xor selfZ.checksum.bytes selfZ.checksum.bytes) = 255 :=
  ⟨Reachable.init, bucket_placement selfZ (NewTable selfZ) Reachable.init 255 [selfZ] (by decide)
    selfZ (List.mem_singleton.mpr rfl)⟩

/-- C3: in every table reachable from `NewTable` by `Update` and `Delete` calls,
`bucketSize` is 16 and every bucket holds at most `bucketSize` entries. -/
theorem bucket_capacity (self : ID) (t : Table) (h : Reachable self t) :
    t.bucketSize = 16 ∧ ∀ b ∈ t.buckets, b.length ≤ t.bucketSize := by
  have hinv := h.inv
  refine ⟨hinv.size_eq, ?_⟩
  intro b hb
  obtain ⟨i, hi⟩ := List.mem_iff_getElem?.mp hb
  rw [hinv.size_eq]
  exact (hinv.good i b hi).1

/-- Witness of `bucket_capacity`: the table whose bucket 0 is full. -/
theorem bucket_capacity_witness :
    Reachable selfZ fullTable ∧
      (fullTable.bucketSize = 16 ∧ ∀ b ∈ fullTable.buckets, b.length ≤ fullTable.bucketSize) :=
  ⟨reachable_fullTable, bucket_capacity selfZ fullTable reachable_fullTable⟩

/-! ## `Update` -/

/-- C4: on a reachable table `Update` of a non-nil target returns, and it returns
`ErrBucketFull` exactly when the destination bucket `buckets[getBucketID]` holds
16 entries and none of them has the target's digest; in every other case it
returns nil. -/
theorem Update_error_iff_full (self : ID) (t : Table) (h : Reachable self t) (x : ID) :
    ∃ b t' err, t.buckets[getBucketID t.self.checksum x.checksum]? = some b ∧
      Update t (some x) = .ok (t', err) ∧
      (err = some TableError.ErrBucketFull ↔
        (b.length = 16 ∧ ∀ y ∈ b, y.checksum ≠ x.checksum)) ∧
      (err ≠ some TableError.ErrBucketFull → err = none) := by
  have hinv := h.inv
  have hlt : getBucketID t.self.checksum x.checksum < t.buckets.length := by
    rw [hinv.len_eq]
    exact getBucketID_lt _ _
  have hb : t.buckets[getBucketID t.self.checksum x.checksum]? =
      some t.buckets[getBucketID t.self.checksum x.checksum] := List.getElem?_eq_getElem hlt
  have hcap := (hinv.good _ _ hb).1
  refine ⟨t.buckets[getBucketID t.self.checksum x.checksum], ?_⟩
  generalize t.buckets[getBucketID t.self.checksum x.checksum] = b at hb hcap
  cases hf : Find b (some x) with
  | some e =>
    obtain ⟨v, hv, hvc, _⟩ := scan_eq_some x.checksum b e hf
    refine ⟨t.setBucket (getBucketID t.self.checksum x.checksum) (MoveToFront b e), none, hb,
      by simp [Update, hb, hf], ?_, fun _ => rfl⟩
    constructor
    · intro hcontra; cases hcontra
    · intro hfull
      exact absurd hvc (hfull.2 v (List.getElem?_mem hv))
  | none =>
    have hnone := (scan_eq_none_iff x.checksum b).mp hf
    by_cases hlen : b.length < t.bucketSize
    · refine ⟨t.setBucket (getBucketID t.self.checksum x.checksum) (PushFront b x), none, hb,
        by simp [Update, hb, hf, hlen], ?_, fun _ => rfl⟩
      constructor
      · intro hcontra; cases hcontra
      · intro hfull
        rw [hinv.size_eq] at hlen
        omega
    · refine ⟨t, some TableError.ErrBucketFull, hb, by simp [Update, hb, hf, hlen], ?_,
        fun hcontra => absurd rfl hcontra⟩
      constructor
      · intro _
        rw [hinv.size_eq] at hlen
        exact ⟨by omega, hnone⟩
      · intro _; rfl

set_option maxRecDepth 100000 in
/-- Witness of `Update_error_iff_full`: a new digest offered to the full bucket 0
of `fullTable`, and the digest of the local identity offered to the fresh table. -/
theorem Update_error_iff_full_witness :
    Reachable selfZ fullTable ∧
    Update fullTable (some (peer 144 17)) = .ok (fullTable, some TableError.ErrBucketFull) ∧
    Update (NewTable selfZ) (some ⟨zeroDigest, 5⟩) = .ok (NewTable selfZ, none) ∧
    ∃ b t' err, fullTable.buckets[getBucketID fullTable.self.checksum (peer 144 17).checksum]? =
        some b ∧
      Update fullTable (some (peer 144 17)) = .ok (t', err) ∧
      (err = some TableError.ErrBucketFull ↔
        (b.length = 16 ∧ ∀ y ∈ b, y.checksum ≠ (peer 144 17).checksum)) ∧
      (err ≠ some TableError.ErrBucketFull → err = none) :=
  ⟨reachable_fullTable, by decide, by decide,
    Update_error_iff_full selfZ fullTable reachable_fullTable (peer 144 17)⟩

/-- C5: whenever `Update` returns `ErrBucketFull`, the table after the call is the
table before it. -/
theorem Update_full_unchanged (t t' : Table) (target : Option ID)
    (h : Update t target = .ok (t', some TableError.ErrBucketFull)) : t' = t := by
  cases target with
  | none => simp [Update] at h
  | some x =>
    simp only [Update] at h
    cases hb : t.buckets[getBucketID t.self.checksum x.checksum]? with
    | none => simp [hb] at h
    | some b =>
      simp only [hb] at h
      cases hf : Find b (some x) with
      | some e => simp [hf] at h
      | none =>
        simp only [hf] at h
        by_cases hlt : b.length < t.bucketSize
        · simp [hlt] at h
        · simp [hlt] at h
          exact h.symm

set_option maxRecDepth 100000 in
/-- Witness of `Update_full_unchanged`: the rejected call on `fullTable`. -/
theorem Update_full_unchanged_witness :
    Update fullTable (some (peer 145 18)) = .ok (fullTable, some TableError.ErrBucketFull) ∧
      fullTable = fullTable :=
  ⟨by decide, Update_full_unchanged fullTable fullTable (some (peer 145 18)) (by decide)⟩

theorem eraseIdx_no_digest (b : Bucket) (e : Nat) (v : ID) (hv : b[e]? = some v)
    (hnd : (b.map ID.checksum).Nodup) : ∀ w ∈ b.eraseIdx e, w.checksum ≠ v.checksum := by
  have hp := perm_cons_eraseIdx b e v hv
  have hnd' : ((v :: b.eraseIdx e).map ID.checksum).Nodup := (hp.map _).nodup_iff.mpr hnd
  simp only [List.map_cons, List.nodup_cons] at hnd'
  intro w hw hwc
  exact hnd'.1 (List.mem_map.mpr ⟨w, hw, hwc⟩)

/-- C6: on a reachable table, `Update` of an identity whose digest is present in
its destination bucket returns nil; every bucket keeps its entries and its count
(the new content is a rearrangement of the old), every bucket but the destination
is unchanged, and the destination becomes the entry with that digest followed by
the other entries in their previous order. -/
theorem Update_refresh (self : ID) (t : Table) (h : Reachable self t) (x : ID) (b : Bucket)
    (hb : t.buckets[getBucketID t.self.checksum x.checksum]? = some b)
    (hx : ∃ y ∈ b, y.checksum = x.checksum) :
    ∃ t' e v, Update t (some x) = .ok (t', none) ∧
      t'.buckets.length = t.buckets.length ∧
      (∀ j b₀, t.buckets[j]? = some b₀ → ∃ b₁, t'.buckets[j]? = some b₁ ∧ b₁.Perm b₀ ∧
        (j ≠ getBucketID t.self.checksum x.checksum → b₁ = b₀)) ∧
      b[e]? = some v ∧ v.checksum = x.checksum ∧
      (∀ w ∈ b.eraseIdx e, w.checksum ≠ x.checksum) ∧
      t'.buckets[getBucketID t.self.checksum x.checksum]? = some (v :: b.eraseIdx e) := by
  have hinv := h.inv
  have hlt : getBucketID t.self.checksum x.checksum < t.buckets.length :=
    (List.getElem?_eq_some.mp hb).1
  cases hf : Find b (some x) with
  | none =>
    obtain ⟨y, hy, hyc⟩ := hx
    exact absurd hyc ((scan_eq_none_iff x.checksum b).mp hf y hy)
  | some e =>
    obtain ⟨v, hv, hvc, _⟩ := scan_eq_some x.checksum b e hf
    have hmove : MoveToFront b e = v :: b.eraseIdx e := by simp [MoveToFront, hv]
    refine ⟨t.setBucket (getBucketID t.self.checksum x.checksum) (v :: b.eraseIdx e), e, v,
      ?_, ?_, ?_, hv, hvc, ?_, ?_⟩
    · simp [Update, hb, hf, hmove]
    · simp [Table.setBucket]
    · intro j b₀ hj
      by_cases hji : j = getBucketID t.self.checksum x.checksum
      · subst hji
        rw [hb] at hj
        cases hj
        exact ⟨v :: b.eraseIdx e, by simp [Table.setBucket, hlt],
          perm_cons_eraseIdx b e v hv, fun hne => absurd rfl hne⟩
      · refine ⟨b₀, ?_, List.Perm.refl _, fun _ => rfl⟩
        simp only [Table.setBucket]
        rw [List.getElem?_set_ne (Ne.symm hji)]
        exact hj
    · rw [← hvc]
      exact eraseIdx_no_digest b e v hv (hinv.good _ b hb).2.2
    · simp [Table.setBucket, hlt]

set_option maxRecDepth 100000 in
/-- Witness of `Update_refresh`: refreshing the entry with first digest byte `0x85`
in the full bucket 0 of `fullTable`. -/
theorem Update_refresh_witness :
    ∃ t' e v, Update fullTable (some (peer 133 99)) = .ok (t', none) ∧
      t'.buckets.length = fullTable.buckets.length ∧
      (∀ j b₀, fullTable.buckets[j]? = some b₀ → ∃ b₁, t'.buckets[j]? = some b₁ ∧ b₁.Perm b₀ ∧
        (j ≠ getBucketID fullTable.self.checksum (peer 133 99).checksum → b₁ = b₀)) ∧
      (fullTable.buckets.getD 0 [])[e]? = some v ∧ v.checksum = (peer 133 99).checksum ∧
      (∀ w ∈ (fullTable.buckets.getD 0 []).eraseIdx e, w.checksum ≠ (peer 133 99).checksum) ∧
      t'.buckets[getBucketID fullTable.self.checksum (peer 133 99).checksum]? =
        some (v :: (fullTable.buckets.getD 0 []).eraseIdx e) :=
  Update_refresh selfZ fullTable reachable_fullTable (peer 133 99) (fullTable.buckets.getD 0 [])
    (by decide) ⟨peer 133 6, by decide, by decide⟩

/-! ## `Delete` and `Find` -/

/-- C10: for a bucket of a reachable table, when `Delete` returns true a following
`Find` of the same identity in the bucket returns nil. -/
theorem Delete_then_Find (self : ID) (t : Table) (h : Reachable self t) (b : Bucket)
    (hb : b ∈ t.buckets) (x : Option ID) (hd : (Delete b x).2 = true) :
    Find (Delete b x).1 x = none := by
  obtain ⟨i, hi⟩ := List.mem_iff_getElem?.mp hb
  have hnd := (h.inv.good i b hi).2.2
  cases x with
  | none => rfl
  | some y =>
    cases hf : Find b (some y) with
    | none => simp [Delete, hf] at hd
    | some e =>
      obtain ⟨v, hv, hvc, _⟩ := scan_eq_some y.checksum b e hf
      have hD : Delete b (some y) = (b.eraseIdx e, b[e]?.isSome) := by
        simp [Delete, hf, Remove]
      rw [hD]
      simp only [Find]
      rw [scan_eq_none_iff, ← hvc]
      exact eraseIdx_no_digest b e v hv hnd

set_option maxRecDepth 100000 in
/-- Witness of `Delete_then_Find`: deleting the entry with first digest byte `0x83`
from the full bucket 0 of `fullTable`. -/
theorem Delete_then_Find_witness :
    (Delete (fullTable.buckets.getD 0 []) (some (peer 131 4))).2 = true ∧
      Find (Delete (fullTable.buckets.getD 0 []) (some (peer 131 4))).1 (some (peer 131 4)) = none :=
  ⟨by decide, Delete_then_Find selfZ fullTable reachable_fullTable (fullTable.buckets.getD 0 [])
    (by decide) (some (peer 131 4)) (by decide)⟩

/-! ## Lemmas on `bytes.Compare` and `sort.Slice` -/

theorem bytesCompare_eq_neg_one_iff (a b : List Nat) :
    bytesCompare a b = -1 ↔ List.Lex (· < ·) a b := by
  induction a generalizing b with
  | nil =>
    cases b with
    | nil => simp [bytesCompare, List.Lex.not_nil_right]
    | cons y ys => simp [bytesCompare, List.Lex.nil]
  | cons x xs ih =>
    cases b with
    | nil => simp [bytesCompare, List.Lex.not_nil_right]
    | cons y ys =>
      unfold bytesCompare
      by_cases hxy : x < y
      · simp [hxy, List.Lex.rel hxy]
      · by_cases hyx : y < x
        · simp only [hxy, hyx, if_true, if_false]
          constructor
          · intro h; cases h
          · intro h
            cases h with
            | cons h' => omega
            | rel h' => omega
        · have hEq : x = y := by omega
          subst hEq
          simp only [hxy, if_false]
          rw [ih ys, List.Lex.cons_iff]

theorem bytesCompare_swap (a b : List Nat) : bytesCompare b a = - bytesCompare a b := by
  induction a generalizing b with
  | nil => cases b <;> simp [bytesCompare]
  | cons x xs ih =>
    cases b with
    | nil => simp [bytesCompare]
    | cons y ys =>
      unfold bytesCompare
      by_cases hxy : x < y
      · have : ¬ y < x := by omega
        simp [hxy, this]
      · by_cases hyx : y < x
        · simp [hxy, hyx]
        · simp [hxy, hyx, ih ys]

theorem bytesCompare_range (a b : List Nat) :
    bytesCompare a b = -1 ∨ bytesCompare a b = 0 ∨ bytesCompare a b = 1 := by
  induction a generalizing b with
  | nil => cases b <;> simp [bytesCompare]
  | cons x xs ih =>
    cases b with
    | nil => simp [bytesCompare]
    | cons y ys =>
      unfold bytesCompare
      split
      · simp
      · split
        · simp
        · exact ih ys

theorem less_iff_lex (c : Digest) (a b : ID) :
    less c a b = true ↔
      List.Lex (· < ·) (xor a.checksum.bytes c.bytes) (xor b.checksum.bytes c.bytes) := by
  simp [less, bytesCompare_eq_neg_one_iff]

theorem less_asymm (c : Digest) (a b : ID) (h : less c a b = true) : less c b a = false := by
  cases hba : less c b a with
  | false => rfl
  | true =>
    rw [less_iff_lex] at h hba
    exact absurd hba (IsAsymm.asymm _ _ h)

theorem less_neg_trans (c : Digest) (x y z : ID) (h₁ : less c y x = false)
    (h₂ : less c z y = false) : less c z x = false := by
  cases hzx : less c z x with
  | false => rfl
  | true =>
    have n₁ : ¬ List.Lex (· < ·) (xor y.checksum.bytes c.bytes) (xor x.checksum.bytes c.bytes) := by
      rw [← less_iff_lex]; simp [h₁]
    have n₂ : ¬ List.Lex (· < ·) (xor z.checksum.bytes c.bytes) (xor y.checksum.bytes c.bytes) := by
      rw [← less_iff_lex]; simp [h₂]
    rw [less_iff_lex] at hzx
    rcases trichotomous_of (List.Lex (fun (m n : Nat) => m < n))
      (xor y.checksum.bytes c.bytes) (xor z.checksum.bytes c.bytes) with hlt | heq | hgt
    · exact absurd (IsTrans.trans _ _ _ hlt hzx) n₁
    · rw [heq] at n₁
      exact absurd hzx n₁
    · exact absurd hgt n₂

theorem less_false_iff (c : Digest) (a b : ID) :
    less c b a = false ↔
      bytesCompare (xor a.checksum.bytes c.bytes) (xor b.checksum.bytes c.bytes) ≤ 0 := by
  have hs := bytesCompare_swap (xor a.checksum.bytes c.bytes) (xor b.checksum.bytes c.bytes)
  have hr := bytesCompare_range (xor a.checksum.bytes c.bytes) (xor b.checksum.bytes c.bytes)
  simp only [less, decide_eq_false_iff_not, hs]
  omega

theorem insertSorted_perm (lt : ID → ID → Bool) (x : ID) (l : List ID) :
    (insertSorted lt x l).Perm (x :: l) := by
  induction l with
  | nil => exact List.Perm.refl _
  | cons y ys ih =>
    unfold insertSorted
    split
    · exact (List.Perm.cons y ih).trans (List.Perm.swap x y ys)
    · exact List.Perm.refl _

theorem sortSlice_perm (lt : ID → ID → Bool) (l : List ID) : (sortSlice lt l).Perm l := by
  induction l with
  | nil => exact List.Perm.refl _
  | cons x xs ih =>
    unfold sortSlice
    exact (insertSorted_perm lt x _).trans (List.Perm.cons x ih)

theorem insertSorted_pairwise (c : Digest) (x : ID) (l : List ID)
    (h : l.Pairwise (fun a b => less c b a = false)) :
    (insertSorted (less c) x l).Pairwise (fun a b => less c b a = false) := by
  induction l with
  | nil => simp [insertSorted]
  | cons y ys ih =>
    rw [List.pairwise_cons] at h
    unfold insertSorted
    by_cases hyx : less c y x = true
    · simp only [hyx, if_true]
      rw [List.pairwise_cons]
      refine ⟨?_, ih h.2⟩
      intro z hz
      rcases List.mem_cons.mp ((insertSorted_perm (less c) x ys).subset hz) with rfl | hz'
      · exact less_asymm c y z hyx
      · exact h.1 z hz'
    · have hyx' : less c y x = false := by simpa using hyx
      simp only [hyx', Bool.false_eq_true, if_false]
      rw [List.pairwise_cons]
      refine ⟨?_, List.pairwise_cons.mpr h⟩
      intro z hz
      rcases List.mem_cons.mp hz with rfl | hz'
      · exact hyx'
      · exact less_neg_trans c x y z hyx' (h.1 z hz')

theorem sortSlice_pairwise (c : Digest) (l : List ID) :
    (sortSlice (less c) l).Pairwise (fun a b => less c b a = false) := by
  induction l with
  | nil => simp [sortSlice]
  | cons x xs ih =>
    unfold sortSlice
    exact insertSorted_pairwise c x _ ih

/-! ## Lemmas on the loop of `FindClosest` -/

theorem candidates_append (c : Digest) (l₁ l₂ : List Bucket) :
    candidates c (l₁ ++ l₂) = candidates c l₁ ++ candidates c l₂ := by
  simp [candidates, List.flatten_append, List.filter_append]

theorem candidates_nil (c : Digest) : candidates c [] = [] := rfl

theorem candidates_singleton (c : Digest) (b : Bucket) :
    candidates c [b] = b.filter (fun id => decide (id.checksum ≠ c)) := by
  simp [candidates]

theorem mem_candidates (c : Digest) (bs : List Bucket) (y : ID) :
    y ∈ candidates c bs ↔ (∃ b ∈ bs, y ∈ b) ∧ y.checksum ≠ c := by
  simp only [candidates, List.mem_filter, List.mem_flatten, decide_eq_true_eq]

theorem window_decomp (bs : List Bucket) (idx i : Nat) :
    bs = (bs.take (idx + i)).take (idx + 1 - i) ++ window bs idx i ++ bs.drop (idx + i) := by
  unfold window
  rw [List.take_append_drop, List.take_append_drop]

theorem length_candidates_window_le (c : Digest) (bs : List Bucket) (idx i : Nat) :
    (candidates c (window bs idx i)).length ≤ (candidates c bs).length := by
  conv_rhs => rw [window_decomp bs idx i]
  simp only [candidates_append, List.length_append]
  omega

theorem window_one (bs : List Bucket) (idx : Nat) (b : Bucket) (h : bs[idx]? = some b) :
    window bs idx 1 = [b] := by
  obtain ⟨hlt, hb⟩ := List.getElem?_eq_some.mp h
  unfold window
  rw [List.take_succ, h]
  simp only [Nat.add_sub_cancel, Option.toList]
  rw [List.drop_append_of_le_length (by simp [List.length_take]; omega)]
  rw [List.drop_eq_nil_of_le (by simp [List.length_take])]
  rfl

theorem window_all (bs : List Bucket) (idx i : Nat) (h₁ : idx < i) (h₂ : bs.length ≤ idx + i) :
    window bs idx i = bs := by
  unfold window
  have h0 : idx + 1 - i = 0 := by omega
  rw [h0, List.drop_zero, List.take_of_length_le h₂]

theorem window_succ (bs : List Bucket) (idx i : Nat) (hi : 1 ≤ i) (hidx : idx < bs.length) :
    window bs idx (i + 1) =
      (if i ≤ idx then (bs[idx - i]?).toList else []) ++ window bs idx i ++ (bs[idx + i]?).toList := by
  unfold window
  have hT : idx + 1 - i ≤ (bs.take (idx + i)).length := by
    simp [List.length_take]; omega
  rw [show idx + (i + 1) = (idx + i) + 1 from rfl, List.take_succ]
  rw [show idx + 1 - (i + 1) = idx - i from by omega]
  rw [List.drop_append_of_le_length (by simp [List.length_take]; omega)]
  congr 1
  by_cases hle : i ≤ idx
  · have hlt : idx - i < (bs.take (idx + i)).length := by
      simp [List.length_take]; omega
    have hlt' : idx - i < bs.length := by omega
    rw [List.drop_eq_getElem_cons hlt, List.getElem_take, if_pos hle,
      List.getElem?_eq_getElem hlt']
    rw [show idx - i + 1 = idx + 1 - i from by omega]
    rfl
  · rw [if_neg hle]
    rw [show idx - i = idx + 1 - i from by omega]
    rfl

theorem mem_window_iff (bs : List Bucket) (idx i : Nat) (b : Bucket) :
    b ∈ window bs idx i ↔ ∃ j, bs[j]? = some b ∧ idx + 1 - i ≤ j ∧ j < idx + i := by
  unfold window
  rw [List.mem_iff_getElem?]
  constructor
  · rintro ⟨m, hm⟩
    rw [List.getElem?_drop, List.getElem?_take] at hm
    split at hm
    · next hlt => exact ⟨idx + 1 - i + m, hm, by omega, hlt⟩
    · cases hm
  · rintro ⟨j, hj, h₁, h₂⟩
    refine ⟨j - (idx + 1 - i), ?_⟩
    rw [List.getElem?_drop, List.getElem?_take]
    rw [show idx + 1 - i + (j - (idx + 1 - i)) = j from by omega, if_pos h₂]
    exact hj

theorem visit_ok (bs : List Bucket) (c : Digest) (g : Bool) (j : Nat) (closest : List ID)
    (h : g = true → j < bs.length) :
    visit bs c g j closest =
      .ok (closest ++ candidates c (if g = true then (bs[j]?).toList else [])) := by
  unfold visit
  cases g with
  | false => simp [candidates_nil]
  | true =>
    have hlt := h rfl
    simp [List.getElem?_eq_getElem hlt, collect, candidates_singleton]

theorem expand_spec (bs : List Bucket) (c : Digest) (idx : Nat) (k : Int)
    (hidx : idx < bs.length) :
    ∀ (fuel i : Nat) (closest : List ID), 1 ≤ i → bs.length ≤ fuel + i →
      closest.Perm (candidates c (window bs idx i)) →
      ∃ res j, expand bs c idx k fuel i closest = .ok res ∧ 1 ≤ j ∧
        res.Perm (candidates c (window bs idx j)) ∧
        (k ≤ (res.length : Int) ∨ (idx < j ∧ bs.length ≤ idx + j)) := by
  intro fuel
  induction fuel with
  | zero =>
    intro i closest hi hfuel hperm
    have hcond : ¬ ((closest.length : Int) < k ∧ (i ≤ idx ∨ idx + i < bs.length)) := by
      rintro ⟨_, h | h⟩ <;> omega
    refine ⟨closest, i, by simp only [expand, if_neg hcond], hi, hperm, ?_⟩
    right
    exact ⟨by omega, by omega⟩
  | succ fuel ih =>
    intro i closest hi hfuel hperm
    by_cases hcond : (closest.length : Int) < k ∧ (i ≤ idx ∨ idx + i < bs.length)
    · have hv₁ := visit_ok bs c (decide (i ≤ idx)) (idx - i) closest
        (by intro h; have := of_decide_eq_true h; omega)
      have hv₂ := fun c₁ => visit_ok bs c (decide (idx + i < bs.length)) (idx + i) c₁
        (by intro h; exact of_decide_eq_true h)
      simp only [expand, if_pos hcond, hv₁, hv₂]
      apply ih (i + 1) _ (by omega) (by omega)
      rw [window_succ bs idx i hi hidx, candidates_append, candidates_append]
      have hup : (if decide (idx + i < bs.length) = true then (bs[idx + i]?).toList else [])
          = (bs[idx + i]?).toList := by
        by_cases hlt : idx + i < bs.length
        · simp [hlt]
        · simp [hlt, List.getElem?_eq_none (Nat.le_of_not_lt hlt)]
      rw [hup]
      simp only [decide_eq_true_eq]
      exact (List.Perm.append (List.perm_append_comm.trans
        (List.Perm.append (List.Perm.refl _) hperm)) (List.Perm.refl _))
    · refine ⟨closest, i, by simp only [expand, if_neg hcond], hi, hperm, ?_⟩
      by_cases hk : (closest.length : Int) < k
      · right
        have : ¬ (i ≤ idx ∨ idx + i < bs.length) := fun h => hcond ⟨hk, h⟩
        exact ⟨by omega, by omega⟩
      · left; omega

theorem gather_spec (t : Table) (c : Digest) (k : Int)
    (hidx : getBucketID t.self.checksum c < t.buckets.length) :
    ∃ cands j, gather t c k = .ok cands ∧ 1 ≤ j ∧
      cands.Perm (candidates c (window t.buckets (getBucketID t.self.checksum c) j)) ∧
      (k ≤ (cands.length : Int) ∨
        (getBucketID t.self.checksum c < j ∧
          t.buckets.length ≤ getBucketID t.self.checksum c + j)) := by
  have hv := visit_ok t.buckets c true (getBucketID t.self.checksum c) [] (fun _ => hidx)
  simp only [gather, hv]
  apply expand_spec t.buckets c _ k hidx t.buckets.length 1 _ (le_refl 1) (by omega)
  rw [window_one t.buckets _ _ (List.getElem?_eq_getElem hidx)]
  simp [List.getElem?_eq_getElem hidx]

theorem gather_ok_lt (t : Table) (c : Digest) (k : Int) (cands : List ID)
    (h : gather t c k = .ok cands) : getBucketID t.self.checksum c < t.buckets.length := by
  by_contra hge
  have hnone : t.buckets[getBucketID t.self.checksum c]? = none :=
    List.getElem?_eq_none (Nat.le_of_not_lt hge)
  simp [gather, visit, hnone] at h

theorem truncate_ok (l : List ID) (k : Int) (res : List ID) (h : truncate l k = .ok res) :
    ((l.length : Int) ≤ k ∧ res = l) ∨ (0 ≤ k ∧ k < (l.length : Int) ∧ res = l.take k.toNat) := by
  unfold truncate at h
  by_cases hgt : (l.length : Int) > k
  · rw [if_pos hgt] at h
    by_cases hneg : k < 0
    · rw [if_pos hneg] at h; cases h
    · rw [if_neg hneg] at h
      cases h
      right
      exact ⟨by omega, hgt, rfl⟩
  · rw [if_neg hgt] at h
    cases h
    left
    exact ⟨by omega, rfl⟩

theorem truncate_returns (l : List ID) (k : Int) (hk : 0 ≤ k) : ∃ res, truncate l k = .ok res := by
  unfold truncate
  split
  · rw [if_neg (by omega)]; exact ⟨_, rfl⟩
  · exact ⟨_, rfl⟩

theorem FindClosest_ok (t : Table) (target : Option ID) (k : Int) (res : List ID)
    (h : FindClosest t target k = .ok res) :
    ∃ cands j, 1 ≤ j ∧
      cands.Perm (candidates (targetChecksum target)
        (window t.buckets (getBucketID t.self.checksum (targetChecksum target)) j)) ∧
      (k ≤ (cands.length : Int) ∨
        (getBucketID t.self.checksum (targetChecksum target) < j ∧
          t.buckets.length ≤ getBucketID t.self.checksum (targetChecksum target) + j)) ∧
      (((cands.length : Int) ≤ k ∧ res = sortSlice (less (targetChecksum target)) cands) ∨
        (0 ≤ k ∧ k < (cands.length : Int) ∧
          res = (sortSlice (less (targetChecksum target)) cands).take k.toNat)) := by
  cases hg : gather t (targetChecksum target) k with
  | error e => simp [FindClosest, hg] at h
  | ok cands =>
    have hidx := gather_ok_lt t _ k cands hg
    obtain ⟨cands', j, hg', hj, hperm, hexit⟩ := gather_spec t (targetChecksum target) k hidx
    rw [hg] at hg'
    cases hg'
    simp only [FindClosest, hg] at h
    have hlen : (sortSlice (less (targetChecksum target)) cands).length = cands.length :=
      (sortSlice_perm _ cands).length_eq
    refine ⟨cands, j, hj, hperm, hexit, ?_⟩
    rcases truncate_ok _ k res h with ⟨h₁, h₂⟩ | ⟨h₁, h₂, h₃⟩
    · left; rw [hlen] at h₁; exact ⟨h₁, h₂⟩
    · right; rw [hlen] at h₂; exact ⟨h₁, h₂, h₃⟩

theorem FindClosest_returns (self : ID) (t : Table) (h : Reachable self t) (target : Option ID)
    (k : Int) (hk : 0 ≤ k) : ∃ res, FindClosest t target k = .ok res := by
  have hinv := h.inv
  have hidx : getBucketID t.self.checksum (targetChecksum target) < t.buckets.length := by
    rw [hinv.len_eq]
    exact getBucketID_lt _ _
  obtain ⟨cands, j, hg, _⟩ := gather_spec t (targetChecksum target) k hidx
  simp only [FindClosest, hg]
  exact truncate_returns _ k hk

/-! ## `FindClosest` -/

set_option maxRecDepth 100000 in
/-- C1, as stated, fails: in `sparseTable` (local digest all-zero, entries with
first digest byte `0x80` in bucket 0 and `0x10` in bucket 3) the call with a target
of first digest byte `0x40` (home bucket 1) and `k = 1` returns the entry `0x80`,
at distance `0xc0…`, and leaves out the entry `0x10`, at distance `0x50…`. -/
theorem FindClosest_not_nearest :
    ¬ (∀ (self : ID) (t : Table) (target : Option ID) (k : Int) (res : List ID),
        Reachable self t → 0 ≤ k → FindClosest t target k = .ok res →
        ∀ y ∈ t.buckets.flatten, y ∉ res → y.checksum ≠ targetChecksum target →
          ∀ x ∈ res, less (targetChecksum target) y x = false) := by
  intro h
  have hc := h selfZ sparseTable (some (peer 64 9)) 1 [peer 128 1] reachable_sparseTable
    (by decide) (by decide) (peer 16 2) (by decide) (by decide) (by decide)
    (peer 128 1) (by decide)
  revert hc
  decide

/-- C1, amended: on a reachable table with `k ≥ 0`, what `FindClosest` returns is
the nearest of what it visited: for some radius `r` every returned entry comes from
a bucket at an index within `r` of the home index `getBucketID`; no entry of such a
bucket whose digest differs from the target's and which is left out of the result
is strictly closer to the target than a returned entry; and either `k` entries are
returned or every bucket of the table is within `r`. The call returns whenever the
target digest differs from the local one. -/
theorem FindClosest_nearest_of_visited (self : ID) (t : Table) (h : Reachable self t)
    (target : Option ID) (k : Int) (hk : 0 ≤ k) :
    (targetChecksum target ≠ self.checksum → ∃ res, FindClosest t target k = .ok res) ∧
    ∀ res, FindClosest t target k = .ok res →
      ∃ r : Nat,
        (∀ x ∈ res, ∃ j b, t.buckets[j]? = some b ∧
          getBucketID t.self.checksum (targetChecksum target) ≤ j + r ∧
          j ≤ getBucketID t.self.checksum (targetChecksum target) + r ∧ x ∈ b) ∧
        (∀ j b, t.buckets[j]? = some b →
          getBucketID t.self.checksum (targetChecksum target) ≤ j + r →
          j ≤ getBucketID t.self.checksum (targetChecksum target) + r →
          ∀ y ∈ b, y.checksum ≠ targetChecksum target → y ∉ res →
            ∀ x ∈ res, less (targetChecksum target) y x = false) ∧
        ((res.length : Int) = k ∨ ∀ j, j < t.buckets.length →
          getBucketID t.self.checksum (targetChecksum target) ≤ j + r ∧
          j ≤ getBucketID t.self.checksum (targetChecksum target) + r) := by
  refine ⟨fun _ => FindClosest_returns self t h target k hk, ?_⟩
  intro res hres
  obtain ⟨cands, i, hi, hperm, hexit, hcase⟩ := FindClosest_ok t target k res hres
  have hsp := sortSlice_perm (less (targetChecksum target)) cands
  have hpw := sortSlice_pairwise (targetChecksum target) cands
  have hsub : ∀ x ∈ res, x ∈ sortSlice (less (targetChecksum target)) cands := by
    intro x hx
    rcases hcase with ⟨_, rfl⟩ | ⟨_, _, rfl⟩
    · exact hx
    · exact List.mem_of_mem_take hx
  refine ⟨i - 1, ?_, ?_, ?_⟩
  · intro x hx
    have hx' := hperm.subset (hsp.subset (hsub x hx))
    obtain ⟨⟨b, hb, hxb⟩, _⟩ := (mem_candidates _ _ x).mp hx'
    obtain ⟨j, hj, h₁, h₂⟩ := (mem_window_iff _ _ _ b).mp hb
    exact ⟨j, b, hj, by omega, by omega, hxb⟩
  · intro j b hj h₁ h₂ y hy hyc hyres x hx
    have hbw : b ∈ window t.buckets (getBucketID t.self.checksum (targetChecksum target)) i :=
      (mem_window_iff _ _ _ b).mpr ⟨j, hj, by omega, by omega⟩
    have hyc' : y ∈ candidates (targetChecksum target)
        (window t.buckets (getBucketID t.self.checksum (targetChecksum target)) i) :=
      (mem_candidates _ _ y).mpr ⟨⟨b, hbw, hy⟩, hyc⟩
    have hys : y ∈ sortSlice (less (targetChecksum target)) cands :=
      hsp.symm.subset (hperm.symm.subset hyc')
    rcases hcase with ⟨_, rfl⟩ | ⟨_, _, rfl⟩
    · exact absurd hys hyres
    · rw [← List.take_append_drop k.toNat (sortSlice (less (targetChecksum target)) cands)] at hys hpw
      rcases List.mem_append.mp hys with hyt | hyd
      · exact absurd hyt hyres
      · exact (List.pairwise_append.mp hpw).2.2 x hx y hyd
  · have hlen : (sortSlice (less (targetChecksum target)) cands).length = cands.length :=
      hsp.length_eq
    rcases hexit with hge | ⟨h₁, h₂⟩
    · left
      rcases hcase with ⟨hle, rfl⟩ | ⟨_, hlt, rfl⟩
      · rw [hlen]; omega
      · rw [List.length_take, hlen, min_eq_left (by omega)]
        omega
    · right
      intro j hj
      exact ⟨by omega, by omega⟩

set_option maxRecDepth 100000 in
/-- Witness of `FindClosest_nearest_of_visited`: `sparseTable`, a target of first
digest byte `0x40`, `k = 1`. -/
theorem FindClosest_nearest_of_visited_witness :
    Reachable selfZ sparseTable ∧ (0 : Int) ≤ 1 ∧
    FindClosest sparseTable (some (peer 64 9)) 1 = .ok [peer 128 1] ∧
    ∃ r : Nat,
      (∀ x ∈ [peer 128 1], ∃ j b, sparseTable.buckets[j]? = some b ∧
        getBucketID sparseTable.self.checksum (targetChecksum (some (peer 64 9))) ≤ j + r ∧
        j ≤ getBucketID sparseTable.self.checksum (targetChecksum (some (peer 64 9))) + r ∧
        x ∈ b) ∧
      (∀ j b, sparseTable.buckets[j]? = some b →
        getBucketID sparseTable.self.checksum (targetChecksum (some (peer 64 9))) ≤ j + r →
        j ≤ getBucketID sparseTable.self.checksum (targetChecksum (some (peer 64 9))) + r →
        ∀ y ∈ b, y.checksum ≠ targetChecksum (some (peer 64 9)) → y ∉ [peer 128 1] →
          ∀ x ∈ [peer 128 1], less (targetChecksum (some (peer 64 9))) y x = false) ∧
      ((([peer 128 1] : List ID).length : Int) = 1 ∨ ∀ j, j < sparseTable.buckets.length →
        getBucketID sparseTable.self.checksum (targetChecksum (some (peer 64 9))) ≤ j + r ∧
        j ≤ getBucketID sparseTable.self.checksum (targetChecksum (some (peer 64 9))) + r) :=
  ⟨reachable_sparseTable, by decide, by decide,
    (FindClosest_nearest_of_visited selfZ sparseTable reachable_sparseTable (some (peer 64 9)) 1
      (by decide)).2 [peer 128 1] (by decide)⟩

/-- C7: on a reachable table with `k ≥ 0`, the sequence `FindClosest` returns is
non-decreasing in XOR distance to the target digest (the zero digest for a nil
target): for `a` before `b` in it, `bytes.Compare` of the two distances is not
positive. The call returns whenever the target digest differs from the local one. -/
theorem FindClosest_sorted (self : ID) (t : Table) (h : Reachable self t)
    (target : Option ID) (k : Int) (hk : 0 ≤ k) :
    (targetChecksum target ≠ self.checksum → ∃ res, FindClosest t target k = .ok res) ∧
    ∀ res, FindClosest t target k = .ok res →
      res.Pairwise (fun a b =>
        bytesCompare (xor a.checksum.bytes (targetChecksum target).bytes)
          (xor b.checksum.bytes (targetChecksum target).bytes) ≤ 0) := by
  refine ⟨fun _ => FindClosest_returns self t h target k hk, ?_⟩
  intro res hres
  obtain ⟨cands, i, _, _, _, hcase⟩ := FindClosest_ok t target k res hres
  have hpw := sortSlice_pairwise (targetChecksum target) cands
  have hpw' : res.Pairwise (fun a b => less (targetChecksum target) b a = false) := by
    rcases hcase with ⟨_, rfl⟩ | ⟨_, _, rfl⟩
    · exact hpw
    · exact hpw.sublist (List.take_sublist _ _)
  exact hpw'.imp (fun {a b} hab => (less_false_iff (targetChecksum target) a b).mp hab)

set_option maxRecDepth 100000 in
/-- Witness of `FindClosest_sorted`: `sparseTable`, a target of first digest byte
`0x40`, `k = 2`; the entries come back at distances `0x50…`, `0xc0…`. -/
theorem FindClosest_sorted_witness :
    Reachable selfZ sparseTable ∧ (0 : Int) ≤ 2 ∧
    FindClosest sparseTable (some (peer 64 9)) 2 = .ok [peer 16 2, peer 128 1] ∧
    [peer 16 2, peer 128 1].Pairwise (fun a b =>
      bytesCompare (xor a.checksum.bytes (targetChecksum (some (peer 64 9))).bytes)
        (xor b.checksum.bytes (targetChecksum (some (peer 64 9))).bytes) ≤ 0) :=
  ⟨reachable_sparseTable, by decide, by decide,
    (FindClosest_sorted selfZ sparseTable reachable_sparseTable (some (peer 64 9)) 2
      (by decide)).2 [peer 16 2, peer 128 1] (by decide)⟩

/-- C8: on a reachable table with `k ≥ 0`, no identity `FindClosest` returns has
the digest of the target, the all-zero digest standing for a nil target. The call
returns whenever that digest differs from the local one. -/
theorem FindClosest_excludes_target (self : ID) (t : Table) (h : Reachable self t)
    (target : Option ID) (k : Int) (hk : 0 ≤ k) :
    (targetChecksum target ≠ self.checksum → ∃ res, FindClosest t target k = .ok res) ∧
    (targetChecksum none = zeroDigest ∧ ∀ x, targetChecksum (some x) = x.checksum) ∧
    ∀ res, FindClosest t target k = .ok res →
      ∀ y ∈ res, y.checksum ≠ targetChecksum target := by
  refine ⟨fun _ => FindClosest_returns self t h target k hk, ⟨rfl, fun _ => rfl⟩, ?_⟩
  intro res hres y hy
  obtain ⟨cands, i, _, hperm, _, hcase⟩ := FindClosest_ok t target k res hres
  have hsp := sortSlice_perm (less (targetChecksum target)) cands
  have hys : y ∈ sortSlice (less (targetChecksum target)) cands := by
    rcases hcase with ⟨_, rfl⟩ | ⟨_, _, rfl⟩
    · exact hy
    · exact List.mem_of_mem_take hy
  exact ((mem_candidates _ _ y).mp (hperm.subset (hsp.subset hys))).2

set_option maxRecDepth 100000 in
/-- Witness of `FindClosest_excludes_target`: `fullTable` and a target whose digest
is held by an entry of bucket 0; the other fifteen entries and `selfZ` come back. -/
theorem FindClosest_excludes_target_witness :
    Reachable selfZ fullTable ∧ (0 : Int) ≤ 2 ∧
    FindClosest fullTable (some (peer 133 99)) 2 = .ok [peer 132 5, peer 135 8] ∧
    ∀ y ∈ [peer 132 5, peer 135 8], y.checksum ≠ targetChecksum (some (peer 133 99)) :=
  ⟨reachable_fullTable, by decide, by decide,
    (FindClosest_excludes_target selfZ fullTable reachable_fullTable (some (peer 133 99)) 2
      (by decide)).2.2 [peer 132 5, peer 135 8] (by decide)⟩

/-- C9: on a reachable table with `k ≥ 0`, `FindClosest` returns, for every target,
a sequence whose length is the smaller of `k` and the number of entries of the
whole table whose digest differs from the target's. -/
theorem FindClosest_length (self : ID) (t : Table) (h : Reachable self t)
    (target : Option ID) (k : Int) (hk : 0 ≤ k) :
    ∃ res, FindClosest t target k = .ok res ∧
      (res.length : Int) = min k ((candidates (targetChecksum target) t.buckets).length : Int) := by
  obtain ⟨res, hres⟩ := FindClosest_returns self t h target k hk
  refine ⟨res, hres, ?_⟩
  obtain ⟨cands, i, _, hperm, hexit, hcase⟩ := FindClosest_ok t target k res hres
  have hlen : (sortSlice (less (targetChecksum target)) cands).length = cands.length :=
    (sortSlice_perm _ cands).length_eq
  have hle : cands.length ≤ (candidates (targetChecksum target) t.buckets).length := by
    rw [hperm.length_eq]
    exact length_candidates_window_le _ _ _ _
  rcases hcase with ⟨h₁, rfl⟩ | ⟨_, h₂, rfl⟩
  · rw [hlen]
    rcases hexit with hk' | hall
    · rw [min_eq_left (by omega)]
      omega
    · rw [window_all _ _ _ hall.1 hall.2] at hperm
      rw [← hperm.length_eq, min_eq_right h₁]
  · rw [List.length_take, hlen, min_eq_left (by omega), min_eq_left (by omega)]
    omega

set_option maxRecDepth 100000 in
/-- Witness of `FindClosest_length`: `sparseTable` holds three entries; with a
target of first digest byte `0x40` and `k = 5` all three come back, and with the
local identity as target and `k = 5` the two others come back. -/
theorem FindClosest_length_witness :
    Reachable selfZ sparseTable ∧ (0 : Int) ≤ 5 ∧
    FindClosest sparseTable (some (peer 64 9)) 5 = .ok [selfZ, peer 16 2, peer 128 1] ∧
    FindClosest sparseTable (some selfZ) 5 = .ok [peer 16 2, peer 128 1] ∧
    ∃ res, FindClosest sparseTable (some selfZ) 5 = .ok res ∧
      (res.length : Int) =
        min 5 ((candidates (targetChecksum (some selfZ)) sparseTable.buckets).length : Int) :=
  ⟨reachable_sparseTable, by decide, by decide, by decide,
    FindClosest_length selfZ sparseTable reachable_sparseTable (some selfZ) 5 (by decide)⟩

/-! ## Construction -/

/-- C13: `NewTable self` has `8 * len(self.checksum)`, that is 256, buckets and
`bucketSize` 16; every bucket but the last is empty and the last holds exactly
`self`. -/
theorem NewTable_spec (self : ID) :
    (NewTable self).self = self ∧ (NewTable self).bucketSize = 16 ∧
    (NewTable self).buckets.length = 8 * self.checksum.bytes.length ∧
    (NewTable self).buckets.length = 256 ∧
    (∀ i, i + 1 < (NewTable self).buckets.length → (NewTable self).buckets[i]? = some []) ∧
    (NewTable self).buckets[(NewTable self).buckets.length - 1]? = some [self] := by
  have hlen : self.checksum.bytes.length * 8 = 256 := by
    rw [self.checksum.size_eq]; rfl
  have hl : (NewTable self).buckets.length = 256 := (Inv.newTable self).len_eq
  refine ⟨rfl, rfl, by rw [hl]; omega, hl, ?_, ?_⟩
  · intro i hi
    have hlt : i < (NewTable self).buckets.length := by omega
    rcases NewTable_getElem? self 256 hlen i _ (List.getElem?_eq_getElem hlt)
      with ⟨h1, _⟩ | ⟨_, h2⟩
    · omega
    · rw [List.getElem?_eq_getElem hlt, h2]
  · have hlt : (NewTable self).buckets.length - 1 < (NewTable self).buckets.length := by omega
    rcases NewTable_getElem? self 256 hlen _ _ (List.getElem?_eq_getElem hlt)
      with ⟨_, h2⟩ | ⟨h1, _⟩
    · rw [List.getElem?_eq_getElem hlt, h2]
    · omega

/-! ## Nil target -/

/-- C15: for every table `Update` of a nil target returns nil and the table after
the call is the table before it. -/
theorem Update_nil (t : Table) : Update t none = .ok (t, none) := rfl

/-! ## `Delete`, in full -/

/-- C18: `Delete` returns true exactly when the target is non-nil and the bucket
holds an entry with its digest; then the bucket afterwards is the bucket without
the first such entry, the others in their order; when it returns false the bucket
is unchanged. -/
theorem Delete_spec (b : Bucket) (x : Option ID) :
    ((Delete b x).2 = true ↔ ∃ y, x = some y ∧ ∃ z ∈ b, z.checksum = y.checksum) ∧
    ((Delete b x).2 = true → ∃ y e v, x = some y ∧ b[e]? = some v ∧ v.checksum = y.checksum ∧
      (∀ j w, j < e → b[j]? = some w → w.checksum ≠ y.checksum) ∧
      (Delete b x).1 = b.eraseIdx e) ∧
    ((Delete b x).2 = false → (Delete b x).1 = b) := by
  cases x with
  | none =>
    have hD : Delete b none = (b, false) := rfl
    rw [hD]
    refine ⟨⟨fun h => (by cases h), fun ⟨y, hy, _⟩ => (by cases hy)⟩, fun h => (by cases h),
      fun _ => rfl⟩
  | some y =>
    cases hf : Find b (some y) with
    | none =>
      have hD : Delete b (some y) = (b, false) := by simp [Delete, hf]
      have hnone := (scan_eq_none_iff y.checksum b).mp hf
      rw [hD]
      refine ⟨⟨fun h => (by cases h), ?_⟩, fun h => (by cases h), fun _ => rfl⟩
      rintro ⟨y', hy', z, hz, hzc⟩
      cases hy'
      exact absurd hzc (hnone z hz)
    | some e =>
      obtain ⟨v, hv, hvc, hfirst⟩ := scan_eq_some y.checksum b e hf
      have hD : Delete b (some y) = (b.eraseIdx e, true) := by
        simp [Delete, hf, Remove, hv]
      rw [hD]
      refine ⟨⟨fun _ => ⟨y, rfl, v, List.getElem?_mem hv, hvc⟩, fun _ => rfl⟩, ?_,
        fun h => (by cases h)⟩
      intro _
      exact ⟨y, e, v, rfl, hv, hvc, hfirst, rfl⟩

/-! ## Negative `k` -/

theorem truncate_neg (l : List ID) (k : Int) (hk : k < 0) :
    truncate l k = .error Fault.sliceBoundsOutOfRange := by
  unfold truncate
  rw [if_pos (by omega), if_pos hk]

theorem FindClosest_neg (t : Table) (target : Option ID) (k : Int) (hk : k < 0)
    (res : List ID) : FindClosest t target k ≠ .ok res := by
  intro h
  cases hg : gather t (targetChecksum target) k with
  | error e => simp [FindClosest, hg] at h
  | ok cands =>
    simp only [FindClosest, hg] at h
    rw [truncate_neg _ k hk] at h
    cases h

set_option maxRecDepth 100000 in
/-- C19, as stated, fails: with `k = -1` the guard `len(closest) > k` holds, the
slice expression `closest[:k]` is evaluated with a negative bound, and
`FindClosest` panics instead of returning a sequence. -/
theorem FindClosest_fails :
    FindClosest sparseTable (some (peer 64 9)) (-1) = .error Fault.sliceBoundsOutOfRange := by
  decide

/-- C19, amended: on a reachable table, for every target, nil or not, and every
`k ≥ 0`, `FindClosest` returns a sequence: its bucket lookups are in range, its
loop ends and the truncation to `k` is in range. -/
theorem FindClosest_total (self : ID) (t : Table) (h : Reachable self t)
    (target : Option ID) (k : Int) (hk : 0 ≤ k) :
    ∃ res, FindClosest t target k = .ok res :=
  FindClosest_returns self t h target k hk

set_option maxRecDepth 100000 in
/-- Witness of `FindClosest_total`: a nil target on `onesTable`, whose local digest
is the zero digest that stands for nil, and `k = 3`. -/
theorem FindClosest_total_witness :
    Reachable selfZ onesTable ∧ (0 : Int) ≤ 3 ∧
    FindClosest onesTable none 3 = .ok [⟨onesDigest, 7⟩] ∧
    ∃ res, FindClosest onesTable none 3 = .ok res :=
  ⟨Reachable.init.applyUpdates _, by decide, by decide,
    FindClosest_total selfZ onesTable (Reachable.init.applyUpdates _) none 3 (by decide)⟩

/-! ## Uniqueness of digests -/

theorem digests_disjoint {self : ID} {t : Table} (hinv : Inv self t) (i j : Nat) (hij : i < j)
    (b b' : Bucket) (hb : t.buckets[i]? = some b) (hb' : t.buckets[j]? = some b')
    (x y : ID) (hx : x ∈ b) (hy : y ∈ b') : x.checksum ≠ y.checksum := by
  intro heq
  have h1 := (hinv.good i b hb).2.1 x hx
  have h3 := (hinv.good j b' hb').2.1 y hy
  rw [heq] at h1
  omega

/-- C11: in every table reachable from `NewTable` by `Update` and `Delete` calls
the digests of all entries of all buckets are pairwise different: a digest occurs
in at most one bucket and there once. -/
theorem digests_unique (self : ID) (t : Table) (h : Reachable self t) :
    (t.buckets.flatten.map ID.checksum).Nodup := by
  have hinv := h.inv
  rw [List.map_flatten, List.nodup_flatten]
  constructor
  · intro l hl
    obtain ⟨b, hb, rfl⟩ := List.mem_map.mp hl
    obtain ⟨i, hi⟩ := List.mem_iff_getElem?.mp hb
    exact (hinv.good i b hi).2.2
  · rw [List.pairwise_map, List.pairwise_iff_getElem]
    intro i j hi hj hij
    rw [List.disjoint_left]
    intro d hd hd'
    obtain ⟨x, hx, rfl⟩ := List.mem_map.mp hd
    obtain ⟨y, hy, hyx⟩ := List.mem_map.mp hd'
    exact digests_disjoint hinv i j hij _ _ (List.getElem?_eq_getElem hi)
      (List.getElem?_eq_getElem hj) x y hx hy hyx.symm

/-- Witness of `digests_unique`: the table whose bucket 0 is full. -/
theorem digests_unique_witness :
    Reachable selfZ fullTable ∧ (fullTable.buckets.flatten.map ID.checksum).Nodup :=
  ⟨reachable_fullTable, digests_unique selfZ fullTable reachable_fullTable⟩

/-! ## The range of `getBucketID` -/

/-- C12: for every pair of digests, equal ones included, `getBucketID` is
`prefixLen` of their XOR and lies in `0..N-1` for `N = 8 * len(checksum)`, the
number of buckets of a reachable table. So on a reachable table the bucket lookup
of `Update` finds a bucket and `Update` returns, and `FindClosest` never fails on
a bucket index, whatever the target and `k`. -/
theorem getBucketID_range (self : ID) (t : Table) (h : Reachable self t) (a b : Digest) (x : ID) :
    getBucketID a b = prefixLen (xor a.bytes b.bytes) ∧
    getBucketID a b < 8 * a.bytes.length ∧
    t.buckets.length = 8 * self.checksum.bytes.length ∧
    (∃ bk, t.buckets[getBucketID t.self.checksum x.checksum]? = some bk) ∧
    (∃ t' err, Update t (some x) = .ok (t', err)) ∧
    ∀ (target : Option ID) (k : Int),
      FindClosest t target k ≠ .error Fault.indexOutOfRange := by
  have hinv := h.inv
  have hlt : ∀ d : Digest, getBucketID t.self.checksum d < t.buckets.length := by
    intro d
    rw [hinv.len_eq]
    exact getBucketID_lt _ _
  refine ⟨?_, ?_, ?_, ?_, ?_, ?_⟩
  · rw [getBucketID, xor_comm]
  · have := getBucketID_lt a b
    rw [a.size_eq]
    exact this
  · rw [hinv.len_eq, self.checksum.size_eq]; rfl
  · exact ⟨_, List.getElem?_eq_getElem (hlt x.checksum)⟩
  · have hx : getBucketID t.self.checksum x.checksum < t.buckets.length := hlt x.checksum
    simp only [Update, List.getElem?_eq_getElem hx]
    cases Find t.buckets[getBucketID t.self.checksum x.checksum] (some x) with
    | some e => exact ⟨_, _, rfl⟩
    | none =>
      simp only []
      split
      · exact ⟨_, _, rfl⟩
      · exact ⟨_, _, rfl⟩
  · intro target k hfail
    obtain ⟨cands, j, hg, _⟩ := gather_spec t (targetChecksum target) k (hlt _)
    simp only [FindClosest, hg, truncate] at hfail
    split at hfail
    · split at hfail
      · cases hfail
      · cases hfail
    · cases hfail

set_option maxRecDepth 100000 in
/-- Witness of `getBucketID_range`: the freshly constructed table of `selfZ` and
two equal digests, whose bucket index is 255. -/
theorem getBucketID_range_witness :
    Reachable selfZ (NewTable selfZ) ∧
    getBucketID zeroDigest zeroDigest = 255 ∧
    getBucketID zeroDigest zeroDigest < 8 * zeroDigest.bytes.length :=
  ⟨Reachable.init, by decide,
    (getBucketID_range selfZ (NewTable selfZ) Reachable.init zeroDigest zeroDigest selfZ).2.1⟩

/-! ## The self anchor in `FindClosest` -/

theorem candidates_window_eq (c : Digest) (bs : List Bucket) (idx i : Nat)
    (h : (candidates c bs).length ≤ (candidates c (window bs idx i)).length) :
    candidates c (window bs idx i) = candidates c bs := by
  have hd := window_decomp bs idx i
  have hlen : (candidates c bs).length =
      (candidates c ((bs.take (idx + i)).take (idx + 1 - i))).length +
        (candidates c (window bs idx i)).length + (candidates c (bs.drop (idx + i))).length := by
    conv_lhs => rw [hd]
    simp only [candidates_append, List.length_append]
  have h₁ : candidates c ((bs.take (idx + i)).take (idx + 1 - i)) = [] :=
    List.length_eq_zero.mp (by omega)
  have h₂ : candidates c (bs.drop (idx + i)) = [] := List.length_eq_zero.mp (by omega)
  conv_rhs => rw [hd]
  simp only [candidates_append, h₁, h₂, List.nil_append, List.append_nil]

set_option maxRecDepth 100000 in
/-- C14, as stated, fails: on `sparseTable` the call with a target of first digest
byte `0x40` and `k = 5` returns the local identity `selfZ` first. -/
theorem FindClosest_returns_anchor :
    ¬ (∀ (self : ID) (t : Table) (target : Option ID) (k : Int) (res : List ID),
        Reachable self t → FindClosest t target k = .ok res → self ∉ res) := by
  intro h
  have hc := h selfZ sparseTable (some (peer 64 9)) 5 [selfZ, peer 16 2, peer 128 1]
    reachable_sparseTable (by decide)
  revert hc
  decide

/-- C14, amended: on a reachable table, the local identity `self` is in the result
of `FindClosest` only while the last bucket still holds it and the target digest
differs from the local one; so `self` is not returned once it has been deleted
from the last bucket, nor for a target with the local digest. While the last
bucket holds it and the target digest differs from the local one it is gathered
like any entry: it is returned whenever `k` is at least the number of entries of
the table whose digest differs from the target's. -/
theorem FindClosest_anchor (self : ID) (t : Table) (h : Reachable self t)
    (target : Option ID) (k : Int) (res : List ID) (hres : FindClosest t target k = .ok res) :
    (self ∈ res → targetChecksum target ≠ self.checksum ∧
      ∃ b, t.buckets[t.buckets.length - 1]? = some b ∧ self ∈ b) ∧
    ((∀ b, t.buckets[t.buckets.length - 1]? = some b → self ∉ b) → self ∉ res) ∧
    ((∃ b, t.buckets[t.buckets.length - 1]? = some b ∧ self ∈ b) →
      targetChecksum target ≠ self.checksum →
      ((candidates (targetChecksum target) t.buckets).length : Int) ≤ k → self ∈ res) := by
  have hinv := h.inv
  obtain ⟨cands, i, _, hperm, hexit, hcase⟩ := FindClosest_ok t target k res hres
  have hsp := sortSlice_perm (less (targetChecksum target)) cands
  have hsub : ∀ x ∈ res, x ∈ sortSlice (less (targetChecksum target)) cands := by
    intro x hx
    rcases hcase with ⟨_, rfl⟩ | ⟨_, _, rfl⟩
    · exact hx
    · exact List.mem_of_mem_take hx
  have hfirst : self ∈ res → targetChecksum target ≠ self.checksum ∧
      ∃ b, t.buckets[t.buckets.length - 1]? = some b ∧ self ∈ b := by
    intro hy
    obtain ⟨⟨b, hb, hyb⟩, hne⟩ :=
      (mem_candidates _ _ self).mp (hperm.subset (hsp.subset (hsub self hy)))
    obtain ⟨j, hj, _, _⟩ := (mem_window_iff _ _ _ b).mp hb
    have h1 := (hinv.good j b hj).2.1 self hyb
    rw [getBucketID_self] at h1
    have hj255 : j = t.buckets.length - 1 := by rw [hinv.len_eq]; omega
    refine ⟨fun heq => hne heq.symm, b, ?_, hyb⟩
    rw [← hj255]; exact hj
  refine ⟨hfirst, ?_, ?_⟩
  · intro hnot hmem
    obtain ⟨_, b, hb, hsb⟩ := hfirst hmem
    exact hnot b hb hsb
  · rintro ⟨b, hb, hsb⟩ hne hk
    have hall : self ∈ candidates (targetChecksum target) t.buckets :=
      (mem_candidates _ _ self).mpr ⟨⟨b, List.getElem?_mem hb, hsb⟩, fun heq => hne heq.symm⟩
    have hle : cands.length ≤ (candidates (targetChecksum target) t.buckets).length := by
      rw [hperm.length_eq]
      exact length_candidates_window_le _ _ _ _
    have hw : candidates (targetChecksum target)
        (window t.buckets (getBucketID t.self.checksum (targetChecksum target)) i) =
        candidates (targetChecksum target) t.buckets := by
      rcases hexit with hge | ⟨h₁, h₂⟩
      · apply candidates_window_eq
        rw [← hperm.length_eq]
        omega
      · rw [window_all _ _ _ h₁ h₂]
    rw [hw] at hperm
    have hsorted : self ∈ sortSlice (less (targetChecksum target)) cands :=
      hsp.symm.subset (hperm.symm.subset hall)
    rcases hcase with ⟨_, rfl⟩ | ⟨_, hlt, _⟩
    · exact hsorted
    · omega

set_option maxRecDepth 100000 in
/-- Witness of `FindClosest_anchor`: `sparseTable` after `selfZ` was deleted from
its last bucket; the call returns the two other entries. -/
theorem FindClosest_anchor_witness :
    Reachable selfZ anchorlessTable ∧
    FindClosest anchorlessTable (some (peer 64 9)) 5 = .ok [peer 16 2, peer 128 1] ∧
    ((∀ b, anchorlessTable.buckets[anchorlessTable.buckets.length - 1]? = some b → selfZ ∉ b) →
      selfZ ∉ [peer 16 2, peer 128 1]) :=
  ⟨Reachable.delete sparseTable 255 (some selfZ) reachable_sparseTable (by decide), by decide,
    (FindClosest_anchor selfZ anchorlessTable
      (Reachable.delete sparseTable 255 (some selfZ) reachable_sparseTable (by decide))
      (some (peer 64 9)) 5 [peer 16 2, peer 128 1] (by decide)).2.1⟩

/-! ## The table after a successful `Update` -/

theorem eraseIdx_eq_filter (c : Digest) (b : Bucket) (e : Nat) (hf : scan c b = some e)
    (hnd : (b.map ID.checksum).Nodup) :
    b.eraseIdx e = b.filter (fun y => decide (y.checksum ≠ c)) := by
  induction b generalizing e with
  | nil => simp [scan] at hf
  | cons y rest ih =>
    simp only [List.map_cons, List.nodup_cons] at hnd
    by_cases hy : y.checksum = c
    · simp [scan, hy] at hf
      subst hf
      have hrest : ∀ a ∈ rest, decide (a.checksum ≠ c) = true := by
        intro a ha
        have : a.checksum ≠ c := by
          intro hac
          exact hnd.1 (List.mem_map.mpr ⟨a, ha, by rw [hac, hy]⟩)
        simpa using this
      rw [List.eraseIdx_cons_zero, List.filter_cons_of_neg (by simpa using hy),
        List.filter_eq_self.mpr hrest]
    · simp [scan, hy] at hf
      obtain ⟨e', he', rfl⟩ := hf
      rw [List.eraseIdx_cons_succ, List.filter_cons_of_pos (by simpa using hy), ih e' he' hnd.2]

/-- C17: on a reachable table, when `Update` of a non-nil `x` returns nil, the
bucket at index `prefixLen (xor self.checksum x.checksum)` afterwards is an entry
with the digest of `x` (the entry already there, or `x` when there was none)
followed by the former entries with other digests in their former order, and every
other bucket is as before. `Update` returns for every `x` whose digest differs
from the local one. -/
theorem Update_post (self : ID) (t : Table) (h : Reachable self t) (x : ID) :
    (x.checksum ≠ self.checksum → ∃ t' err, Update t (some x) = .ok (t', err)) ∧
    ∀ t', Update t (some x) = .ok (t', none) →
      ∃ b v, t.buckets[prefixLen (xor self.checksum.bytes x.checksum.bytes)]? = some b ∧
        v.checksum = x.checksum ∧
        (v ∈ b ∨ (v = x ∧ ∀ y ∈ b, y.checksum ≠ x.checksum)) ∧
        t'.buckets[prefixLen (xor self.checksum.bytes x.checksum.bytes)]? =
          some (v :: b.filter (fun y => decide (y.checksum ≠ x.checksum))) ∧
        t'.buckets.length = t.buckets.length ∧
        ∀ j, j ≠ prefixLen (xor self.checksum.bytes x.checksum.bytes) →
          t'.buckets[j]? = t.buckets[j]? := by
  have hinv := h.inv
  have hidx : getBucketID t.self.checksum x.checksum =
      prefixLen (xor self.checksum.bytes x.checksum.bytes) := by
    rw [hinv.self_eq, getBucketID, xor_comm]
  constructor
  · intro hne
    have hlt : getBucketID t.self.checksum x.checksum < t.buckets.length := by
      rw [hinv.self_eq, hinv.len_eq]
      exact getBucketID_lt _ _
    simp only [Update, List.getElem?_eq_getElem hlt]
    cases Find t.buckets[getBucketID t.self.checksum x.checksum] (some x) with
    | some e => exact ⟨_, _, rfl⟩
    | none =>
      simp only []
      split
      · exact ⟨_, _, rfl⟩
      · exact ⟨_, _, rfl⟩
  · intro t' hu
    rw [← hidx]
    simp only [Update] at hu
    cases hb : t.buckets[getBucketID t.self.checksum x.checksum]? with
    | none => simp [hb] at hu
    | some b =>
      have hlt : getBucketID t.self.checksum x.checksum < t.buckets.length :=
        (List.getElem?_eq_some.mp hb).1
      have hset : ∀ c : Bucket,
          (t.setBucket (getBucketID t.self.checksum x.checksum) c).buckets[
            getBucketID t.self.checksum x.checksum]? = some c := by
        intro c; simp [Table.setBucket, hlt]
      have hother : ∀ (c : Bucket) (j : Nat), j ≠ getBucketID t.self.checksum x.checksum →
          (t.setBucket (getBucketID t.self.checksum x.checksum) c).buckets[j]? =
            t.buckets[j]? := by
        intro c j hj
        simp only [Table.setBucket]
        exact List.getElem?_set_ne (Ne.symm hj)
      simp only [hb] at hu
      cases hf : Find b (some x) with
      | some e =>
        simp [hf] at hu
        obtain ⟨v, hv, hvc, _⟩ := scan_eq_some x.checksum b e hf
        have hmove : MoveToFront b e = v :: b.eraseIdx e := by simp [MoveToFront, hv]
        rw [← hu, hmove, eraseIdx_eq_filter x.checksum b e hf (hinv.good _ b hb).2.2]
        exact ⟨b, v, rfl, hvc, Or.inl (List.getElem?_mem hv), hset _,
          by simp [Table.setBucket], hother _⟩
      | none =>
        have hnone := (scan_eq_none_iff x.checksum b).mp hf
        simp only [hf] at hu
        by_cases hlen : b.length < t.bucketSize
        · simp [hlen] at hu
          rw [← hu]
          have hfil : b.filter (fun y => decide (y.checksum ≠ x.checksum)) = b :=
            List.filter_eq_self.mpr (fun a ha => by simpa using hnone a ha)
          refine ⟨b, x, rfl, rfl, Or.inr ⟨rfl, hnone⟩, ?_, by simp [Table.setBucket],
            hother _⟩
          rw [hfil]
          exact hset _
        · simp [hlen] at hu

set_option maxRecDepth 100000 in
/-- Witness of `Update_post`: with an all-zero local digest, the identity whose
digest is 32 bytes of `0xff` has bucket index 0 and lands at the front of
bucket 0. -/
theorem Update_post_witness :
    Reachable selfZ (NewTable selfZ) ∧
    prefixLen (xor selfZ.checksum.bytes onesDigest.bytes) = 0 ∧
    Update (NewTable selfZ) (some ⟨onesDigest, 7⟩) = .ok (onesTable, none) ∧
    onesTable.buckets[0]? = some [⟨onesDigest, 7⟩] ∧
    ∃ b v, (NewTable selfZ).buckets[prefixLen (xor selfZ.checksum.bytes onesDigest.bytes)]? = some b ∧
      v.checksum = onesDigest ∧
      (v ∈ b ∨ (v = ⟨onesDigest, 7⟩ ∧ ∀ y ∈ b, y.checksum ≠ onesDigest)) ∧
      onesTable.buckets[prefixLen (xor selfZ.checksum.bytes onesDigest.bytes)]? =
        some (v :: b.filter (fun y => decide (y.checksum ≠ onesDigest))) ∧
      onesTable.buckets.length = (NewTable selfZ).buckets.length ∧
      ∀ j, j ≠ prefixLen (xor selfZ.checksum.bytes onesDigest.bytes) →
        onesTable.buckets[j]? = (NewTable selfZ).buckets[j]? :=
  ⟨Reachable.init, by decide, by decide, by decide,
    (Update_post selfZ (NewTable selfZ) Reachable.init ⟨onesDigest, 7⟩).2 onesTable (by decide)⟩

/-! ## The buckets of the longest prefixes -/

theorem leadingZeroBits_high (n : Nat) :
    ∀ l : List Nat, l.length = n + 1 → 8 * n ≤ leadingZeroBits l →
      ∃ z, l = List.replicate n 0 ++ [z] ∧ leadingZeroBits l = 8 * n + leadingZeros8 z := by
  induction n with
  | zero =>
    intro l hl _
    match l, hl with
    | [z], _ =>
      refine ⟨z, rfl, ?_⟩
      by_cases hz : z = 0
      · subst hz; rfl
      · simp [leadingZeroBits, hz]
  | succ n ih =>
    intro l hl hp
    match l, hl with
    | b :: l', hl' =>
      by_cases hb : b = 0
      · subst hb
        have hp' : 8 * n ≤ leadingZeroBits l' := by
          simp [leadingZeroBits] at hp; omega
        obtain ⟨z, hz, hpz⟩ := ih l' (by simpa using hl') hp'
        refine ⟨z, ?_, ?_⟩
        · rw [hz, List.replicate_succ, List.cons_append]
        · simp [leadingZeroBits, hpz]; omega
      · have := leadingZeros8_lt b hb
        simp [leadingZeroBits, hb] at hp
        omega

theorem xor_right_cancel (a b s : List Nat) (ha : a.length = s.length) (hb : b.length = s.length)
    (h : xor a s = xor b s) : a = b := by
  induction s generalizing a b with
  | nil =>
    rw [List.length_nil, List.length_eq_zero] at ha hb
    rw [ha, hb]
  | cons z zs ih =>
    match a, b, ha, hb with
    | x :: xs, y :: ys, ha, hb =>
      simp only [xor, List.cons.injEq] at h
      rw [Nat.xor_left_inj.mp h.1, ih xs ys (by simpa using ha) (by simpa using hb) h.2]

theorem leadingZeros8_three (z : Nat) : leadingZeros8 z = 3 ↔ 16 ≤ z ∧ z < 32 := by
  unfold leadingZeros8
  repeat' split
  all_goals omega

theorem leadingZeros8_ge_four (z : Nat) : 4 ≤ leadingZeros8 z ↔ z < 16 := by
  unfold leadingZeros8
  repeat' split
  all_goals omega

theorem getLast_xor_eq (l : List Nat) (n z : Nat) (h : l = List.replicate n 0 ++ [z]) :
    l.getLast?.getD 0 = z := by
  rw [h]; simp

theorem length_le_of_key (s : Digest) (f : Nat → Nat) (N : Nat) (D : List Digest) (hnd : D.Nodup)
    (hz : ∀ d ∈ D, ∃ z, xor d.bytes s.bytes = List.replicate 31 0 ++ [z] ∧ f z < N)
    (hinj : ∀ d₁ ∈ D, ∀ d₂ ∈ D, ∀ z₁ z₂, xor d₁.bytes s.bytes = List.replicate 31 0 ++ [z₁] →
      xor d₂.bytes s.bytes = List.replicate 31 0 ++ [z₂] → f z₁ = f z₂ → z₁ = z₂) :
    D.length ≤ N := by
  have hmap : (D.map (fun d => f ((xor d.bytes s.bytes).getLast?.getD 0))).Nodup := by
    apply List.Nodup.map_on _ hnd
    intro d₁ h₁ d₂ h₂ hf
    obtain ⟨z₁, hz₁, _⟩ := hz d₁ h₁
    obtain ⟨z₂, hz₂, _⟩ := hz d₂ h₂
    simp only [getLast_xor_eq _ 31 z₁ hz₁, getLast_xor_eq _ 31 z₂ hz₂] at hf
    have hzz := hinj d₁ h₁ d₂ h₂ z₁ z₂ hz₁ hz₂ hf
    apply Digest.ext_bytes
    apply xor_right_cancel _ _ s.bytes (by rw [d₁.size_eq, s.size_eq])
      (by rw [d₂.size_eq, s.size_eq])
    rw [hz₁, hz₂, hzz]
  have hsub : D.map (fun d => f ((xor d.bytes s.bytes).getLast?.getD 0)) ⊆ List.range N := by
    intro v hv
    obtain ⟨d, hd, rfl⟩ := List.mem_map.mp hv
    obtain ⟨z, hzd, hlt⟩ := hz d hd
    rw [getLast_xor_eq _ 31 z hzd]
    exact List.mem_range.mpr hlt
  have := (List.subperm_of_subset hmap hsub).length_le
  simpa using this

theorem getBucketID_high (s d : Digest) (h : 248 ≤ getBucketID s d) :
    ∃ z, xor d.bytes s.bytes = List.replicate 31 0 ++ [z] ∧
      ((z ≠ 0 ∧ getBucketID s d = 248 + leadingZeros8 z) ∨ (z = 0 ∧ getBucketID s d = 255)) := by
  have hlen : (xor d.bytes s.bytes).length = 31 + 1 := by
    rw [length_xor _ _ (by rw [d.size_eq, s.size_eq]), d.size_eq]; rfl
  unfold getBucketID prefixLen at h ⊢
  rw [hlen] at h ⊢
  obtain ⟨z, hz, hp⟩ := leadingZeroBits_high 31 _ hlen (by omega)
  refine ⟨z, hz, ?_⟩
  rw [hp]
  by_cases hz0 : z = 0
  · right
    subst hz0
    exact ⟨rfl, by decide⟩
  · left
    have := leadingZeros8_lt z hz0
    exact ⟨hz0, by omega⟩

theorem leadingZeros8_range (i z : Nat) (h₁ : 251 ≤ i) (h₂ : i ≤ 255)
    (h : 248 + leadingZeros8 z = i) : 2 ^ (255 - i) ≤ z ∧ z < 2 * 2 ^ (255 - i) := by
  unfold leadingZeros8 at h
  interval_cases i <;> norm_num <;> (repeat' split at h) <;> omega

theorem xor_ne_zero_of_ne (s d : Digest) (hne : d ≠ s) (z : Nat)
    (hz : xor d.bytes s.bytes = List.replicate 31 0 ++ [z]) : z ≠ 0 := by
  intro hz0
  subst hz0
  apply hne
  apply Digest.ext_bytes
  apply (xor_all_zero_iff _ _ (by rw [d.size_eq, s.size_eq])).mp
  rw [hz]
  intro w hw
  simp only [List.mem_append, List.mem_replicate, List.mem_singleton] at hw
  rcases hw with ⟨_, rfl⟩ | rfl <;> rfl

theorem count_high_bucket (s : Digest) (i : Nat) (h₁ : 251 ≤ i) (h₂ : i ≤ 255)
    (D : List Digest) (hnd : D.Nodup) (hD : ∀ d ∈ D, getBucketID s d = i ∧ d ≠ s) :
    D.length ≤ 2 ^ (255 - i) := by
  have key : ∀ d ∈ D, ∀ z, xor d.bytes s.bytes = List.replicate 31 0 ++ [z] →
      2 ^ (255 - i) ≤ z ∧ z < 2 * 2 ^ (255 - i) := by
    intro d hd z hz
    obtain ⟨w, hw, hp⟩ := getBucketID_high s d (by rw [(hD d hd).1]; omega)
    rw [hz] at hw
    have e : z = w := by simpa using hw
    subst e
    rcases hp with ⟨_, hp⟩ | ⟨hz0, _⟩
    · exact leadingZeros8_range i z h₁ h₂ (by rw [← hp, (hD d hd).1])
    · exact absurd hz0 (xor_ne_zero_of_ne s d (hD d hd).2 z hz)
  apply length_le_of_key s (fun z => z - 2 ^ (255 - i)) _ D hnd
  · intro d hd
    obtain ⟨z, hz, _⟩ := getBucketID_high s d (by rw [(hD d hd).1]; omega)
    have := key d hd z hz
    exact ⟨z, hz, by omega⟩
  · intro d₁ hd₁ d₂ hd₂ z₁ z₂ hz₁ hz₂ hf
    have r₁ := key d₁ hd₁ z₁ hz₁
    have r₂ := key d₂ hd₂ z₂ hz₂
    omega

theorem high_bucket_length (self : ID) (i : Nat) (hi : 251 ≤ i) (D : List Digest) (hnd : D.Nodup)
    (hD : ∀ d ∈ D, getBucketID self.checksum d = i) :
    D.length ≤ 16 := by
  have key : ∀ d ∈ D, ∀ z, xor d.bytes self.checksum.bytes = List.replicate 31 0 ++ [z] →
      (leadingZeros8 z = i - 248 ∨ (i = 255 ∧ leadingZeros8 z = 8)) := by
    intro d hd z hz
    obtain ⟨w, hw, hp⟩ := getBucketID_high self.checksum d (by rw [hD d hd]; omega)
    rw [hz] at hw
    have e : z = w := by simpa using hw
    subst e
    rcases hp with ⟨_, hp⟩ | ⟨hz0, hp⟩
    · left
      rw [hD d hd] at hp
      omega
    · right
      rw [hD d hd] at hp
      subst hz0
      exact ⟨hp, rfl⟩
  apply length_le_of_key self.checksum (fun z => z % 16) 16 D hnd
  · intro d hd
    obtain ⟨z, hz, _⟩ := getBucketID_high self.checksum d (by rw [hD d hd]; omega)
    exact ⟨z, hz, Nat.mod_lt _ (by decide)⟩
  · intro d₁ hd₁ d₂ hd₂ z₁ z₂ hz₁ hz₂ hf
    have hl₁ := key d₁ hd₁ z₁ hz₁
    have hl₂ := key d₂ hd₂ z₂ hz₂
    have a₁ := leadingZeros8_three z₁
    have a₂ := leadingZeros8_three z₂
    have b₁ := leadingZeros8_ge_four z₁
    have b₂ := leadingZeros8_ge_four z₂
    omega

/-- C20: on a reachable table, `Update` of a non-nil target whose bucket index
`getBucketID` is at least 251 returns nil and never `ErrBucketFull`. At most
`2 ^ (255 - i)` different digests other than the local one have such a bucket
index `i`; bucket 255 holds the local digest besides. -/
theorem Update_high_bucket_never_full (self : ID) (t : Table) (h : Reachable self t) (x : ID)
    (hx : 251 ≤ getBucketID t.self.checksum x.checksum) :
    (∃ t', Update t (some x) = .ok (t', none)) ∧
    (∀ t' err, Update t (some x) = .ok (t', err) → err ≠ some TableError.ErrBucketFull) ∧
    (∀ D : List Digest, D.Nodup →
      (∀ d ∈ D, getBucketID self.checksum d = getBucketID t.self.checksum x.checksum ∧
        d ≠ self.checksum) →
      D.length ≤ 2 ^ (255 - getBucketID t.self.checksum x.checksum)) ∧
    getBucketID self.checksum self.checksum = 255 := by
  have hinv := h.inv
  have hlt : getBucketID t.self.checksum x.checksum < t.buckets.length := by
    rw [hinv.len_eq]
    exact getBucketID_lt _ _
  have hnever : ∀ t' err, Update t (some x) = .ok (t', err) →
      err ≠ some TableError.ErrBucketFull := by
    intro t' err hu herr
    subst herr
    simp only [Update] at hu
    cases hb : t.buckets[getBucketID t.self.checksum x.checksum]? with
    | none => simp [hb] at hu
    | some b =>
      have hg := hinv.good _ b hb
      simp only [hb] at hu
      cases hf : Find b (some x) with
      | some e => simp [hf] at hu
      | none =>
        have hnone := (scan_eq_none_iff x.checksum b).mp hf
        simp only [hf] at hu
        by_cases hlen : b.length < t.bucketSize
        · simp [hlen] at hu
        · rw [hinv.size_eq] at hlen
          have hlen16 := high_bucket_length self
            (getBucketID t.self.checksum x.checksum) hx (x.checksum :: b.map ID.checksum)
            (by
              rw [List.nodup_cons]
              refine ⟨?_, hg.2.2⟩
              intro hmem
              obtain ⟨y, hy, hyc⟩ := List.mem_map.mp hmem
              exact hnone y hy hyc)
            (by
              intro d hd
              rcases List.mem_cons.mp hd with rfl | hd'
              · rw [hinv.self_eq]
              · obtain ⟨y, hy, rfl⟩ := List.mem_map.mp hd'
                exact hg.2.1 y hy)
          simp only [List.length_cons, List.length_map] at hlen16
          omega
  refine ⟨?_, hnever, ?_, getBucketID_self _⟩
  · have hret : ∃ t' err, Update t (some x) = .ok (t', err) := by
      simp only [Update, List.getElem?_eq_getElem hlt]
      cases Find t.buckets[getBucketID t.self.checksum x.checksum] (some x) with
      | some e => exact ⟨_, _, rfl⟩
      | none =>
        simp only []
        split
        · exact ⟨_, _, rfl⟩
        · exact ⟨_, _, rfl⟩
    obtain ⟨t', err, hu⟩ := hret
    cases err with
    | none => exact ⟨t', hu⟩
    | some e =>
      cases e
      exact absurd rfl (hnever t' _ hu)
  · intro D hnd hD
    have hle : getBucketID t.self.checksum x.checksum ≤ 255 := by
      rw [hinv.len_eq] at hlt; omega
    exact count_high_bucket self.checksum _ hx hle D hnd hD

theorem reachable_highTable : Reachable selfZ highTable :=
  Reachable.init.applyUpdates _

set_option maxRecDepth 100000 in
/-- Witness of `Update_high_bucket_never_full`: bucket 251 of `highTable` holds the
sixteen digests that have bucket index 251, and `Update` of an identity with one of
them returns nil. -/
theorem Update_high_bucket_never_full_witness :
    Reachable selfZ highTable ∧
    getBucketID highTable.self.checksum (lastDigest 20) = 251 ∧
    (highTable.buckets[251]?).map List.length = some 16 ∧
    ∃ t', Update highTable (some ⟨lastDigest 20, 99⟩) = .ok (t', none) :=
  ⟨reachable_highTable, by decide, by decide,
    (Update_high_bucket_never_full selfZ highTable reachable_highTable ⟨lastDigest 20, 99⟩
      (by decide)).1⟩

/-! ## Interleaved calls of `Update` -/

theorem reachable_nearFullTable : Reachable selfZ nearFullTable :=
  Reachable.init.applyUpdates _

/-- A thread that runs its critical sections with no other thread in between
does what `Update` does. -/
theorem runSchedule_alone (t : Table) (target : Option ID) :
    runSchedule (t, [⟨target, Pc.start⟩]) [0, 0, 0] =
      match Update t target with
      | .ok (t', err) => (t', [⟨target, Pc.done err⟩])
      | .error _ => (t, [⟨target, Pc.panicked⟩]) := by
  cases target with
  | none => rfl
  | some x =>
    cases hb : t.buckets[getBucketID t.self.checksum x.checksum]? with
    | none => simp [runSchedule, Thread.step, Update, hb]
    | some b =>
      cases hf : Find b (some x) with
      | some e =>
        have hlt : getBucketID t.self.checksum x.checksum < t.buckets.length :=
          (List.getElem?_eq_some.mp hb).1
        simp [runSchedule, Thread.step, Update, hb, hf, Table.setBucket, hlt]
      | none =>
        by_cases hlen : b.length < t.bucketSize
        · have hlt : getBucketID t.self.checksum x.checksum < t.buckets.length :=
            (List.getElem?_eq_some.mp hb).1
          simp [runSchedule, Thread.step, Update, hb, hf, hlen, Table.setBucket, hlt]
        · simp [runSchedule, Thread.step, Update, hb, hf, hlen]

set_option maxRecDepth 100000 in
/-- C16 fails on the code: two threads call `Update` on `nearFullTable`, whose
bucket 0 holds 15 entries, and both run `Find`, then both run `Len`, then both
run `PushFront`. With two new digests both calls return nil and bucket 0 holds
17 entries; with one new identity offered by both, both calls return nil and its
digest is in bucket 0 twice. -/
theorem interleaved_updates_break_capacity :
    Reachable selfZ nearFullTable ∧
    (nearFullTable.buckets[0]?).map List.length = some 15 ∧
    (runSchedule (nearFullTable, [⟨some (peer 143 16), Pc.start⟩, ⟨some (peer 144 17), Pc.start⟩])
        [0, 1, 0, 1, 0, 1]).2 =
      [⟨some (peer 143 16), Pc.done none⟩, ⟨some (peer 144 17), Pc.done none⟩] ∧
    ((runSchedule (nearFullTable, [⟨some (peer 143 16), Pc.start⟩, ⟨some (peer 144 17), Pc.start⟩])
        [0, 1, 0, 1, 0, 1]).1.buckets[0]?).map List.length = some 17 ∧
    (runSchedule (nearFullTable, [⟨some (peer 143 16), Pc.start⟩, ⟨some (peer 143 16), Pc.start⟩])
        [0, 1, 0, 1, 0, 1]).2 =
      [⟨some (peer 143 16), Pc.done none⟩, ⟨some (peer 143 16), Pc.done none⟩] ∧
    ((runSchedule (nearFullTable, [⟨some (peer 143 16), Pc.start⟩, ⟨some (peer 143 16), Pc.start⟩])
        [0, 1, 0, 1, 0, 1]).1.buckets[0]?).map (fun b => b.take 2) =
      some [peer 143 16, peer 143 16] := by
  refine ⟨reachable_nearFullTable, ?_, ?_, ?_, ?_, ?_⟩ <;> decide

end Skademlia
